import Mathlib

/-!
# Heap-Management: a first-fit allocator with coalescing

Shallow embedding of `BT23CSE047_Assignment2.c`.

* The two singly linked lists `freeBlocks` and `allocatedBlocks` are Lean lists of
  `MemoryBlock` records, in link order.
* The C `int` fields `address` and `size` are integers, and every `int` addition or
  subtraction of the source is followed by `wrap32`, the reduction to the 32-bit two's
  complement range (C leaves signed overflow undefined; this is what the program does
  when compiled in the usual way).  Every value the program computes from
  `initializeHeap` onwards lies in `[0, 1024]` (see `Reachable.bounds`), where `wrap32`
  changes nothing.
* A pointer (`void*`) is its integer value, the null pointer being `0`.  The handle
  of a block is `heapMemory + address`, as in the source.
* The outcome of `malloc` for a bookkeeping record is an explicit Boolean argument.
* `freeMemory` reports which of its four paths it took (three of them print a
  message in the source).
* `main` is a fold of its loop body over the commands typed before the choice 4; a
  store outside the array `allocatedMemory` ends the run, since what the program does
  afterwards is undefined.
* A free record keeps whatever its field `memory` held; the source never reads it.
  Where an operation may leave a free record with another `memory` than before, free
  lists are compared through `segments`, their addresses and sizes.
-/

namespace HeapManagement

/-- The value of a 32-bit `int` that holds the integer `x` up to wrap-around. -/
def wrap32 (x : Int) : Int :=
  (x + 2147483648) % 4294967296 - 2147483648

/-- The record `struct MemoryBlock`, without its `next` link. -/
structure MemoryBlock where
  address : Int
  size : Int
  memory : Int
  deriving DecidableEq

/-- The three globals `heapMemory`, `freeBlocks`, `allocatedBlocks`. -/
structure Heap where
  heapMemory : Int
  freeBlocks : List MemoryBlock
  allocatedBlocks : List MemoryBlock
  deriving DecidableEq

/-- Source `initializeHeap`: `heap` is what `malloc(1024)` returned and `blockOk` tells
whether the `malloc` of the first record succeeded; `none` stands for `exit(1)`. -/
def initializeHeap (heap : Int) (blockOk : Bool) : Option Heap :=
  if heap = 0 then none
  else if blockOk = false then none
  else some { heapMemory := heap, freeBlocks := [⟨0, 1024, 0⟩], allocatedBlocks := [] }

/-- The list walk `while (ptr != NULL && cond(ptr)) { prev = ptr; ptr = ptr->next; }`.
The first component holds the nodes walked past (its last node is `prev`), the second
the remaining list, which starts at `ptr`. -/
def advance (cond : MemoryBlock → Bool) : List MemoryBlock → List MemoryBlock × List MemoryBlock
  | [] => ([], [])
  | b :: rest =>
    if cond b then (b :: (advance cond rest).1, (advance cond rest).2)
    else ([], b :: rest)

/-- Source `allocateMemory`: the returned pointer (`0` for `NULL`) and the new globals.
`mallocOk` is the outcome of the `malloc` of the new record. -/
def allocateMemory (s : Heap) (size : Int) (mallocOk : Bool) : Int × Heap :=
  if size ≤ 0 then (0, s)
  else
    match advance (fun b => decide (size > b.size)) s.freeBlocks with
    | (_, []) => (0, s)
    | (before, ptr :: after) =>
      if mallocOk = false then (0, s)
      else
        let newBlock : MemoryBlock :=
          { address := ptr.address, size := size, memory := s.heapMemory + ptr.address }
        let ptr' : MemoryBlock :=
          { ptr with address := wrap32 (ptr.address + size),
                     size := wrap32 (ptr.size - size) }
        let free' := if ptr'.size = 0 then before ++ after else before ++ ptr' :: after
        (newBlock.memory,
          { s with freeBlocks := free', allocatedBlocks := s.allocatedBlocks ++ [newBlock] })

/-- The loop of `mergeFreeBlocks` with `ptr` at the record `p` and `ptr->next` the list
given: either the next record is absorbed into `p` and `p` is examined again, or `p` is
left behind and the walk moves on. -/
def mergeFrom (p : MemoryBlock) : List MemoryBlock → List MemoryBlock
  | [] => [p]
  | q :: rest =>
    if wrap32 (p.address + p.size) = q.address then
      mergeFrom { p with size := wrap32 (p.size + q.size) } rest
    else p :: mergeFrom q rest

/-- Source `mergeFreeBlocks`, as a function of the free list. -/
def mergeFreeBlocks : List MemoryBlock → List MemoryBlock
  | [] => []
  | p :: rest => mergeFrom p rest

/-- The four ways `freeMemory` returns. -/
inductive FreeOutcome where
  /-- Prints "Error: Attempted to free a NULL pointer!". -/
  | nullPointer
  /-- Prints "Error: Attempted to free unallocated memory!". -/
  | notAllocated
  /-- Prints "Warning: Memory block already freed!". -/
  | alreadyFreed
  /-- The block was put back into the free list and the list was coalesced. -/
  | released
  deriving DecidableEq

/-- Source `freeMemory`: the path taken and the new globals. -/
def freeMemory (s : Heap) (memory : Int) : FreeOutcome × Heap :=
  if memory = 0 then (.nullPointer, s)
  else
    match advance (fun b => decide (b.memory ≠ memory)) s.allocatedBlocks with
    | (_, []) => (.notAllocated, s)
    | (before1, ptr1 :: after1) =>
      let allocated' := before1 ++ after1
      let walk := advance (fun c => decide (c.address < ptr1.address)) s.freeBlocks
      match walk.2 with
      | [] =>
        (.released,
          { s with allocatedBlocks := allocated',
                   freeBlocks := mergeFreeBlocks (walk.1 ++ [ptr1]) })
      | curr :: rest =>
        if curr.address = ptr1.address then
          (.alreadyFreed, { s with allocatedBlocks := allocated' })
        else
          (.released,
            { s with allocatedBlocks := allocated',
                     freeBlocks := mergeFreeBlocks (walk.1 ++ ptr1 :: curr :: rest) })

/-- One call of the allocator's interface. -/
inductive Call where
  | allocate (size : Int) (mallocOk : Bool)
  | release (memory : Int)
  deriving DecidableEq

/-- The globals after one call. -/
def step (s : Heap) : Call → Heap
  | .allocate size mallocOk => (allocateMemory s size mallocOk).2
  | .release memory => (freeMemory s memory).2

/-- The states the program can be in: those obtained from a successful `initializeHeap`
(`malloc` returns the null pointer or a positive address) by finitely many calls of
`allocateMemory` and `freeMemory` with arbitrary arguments. -/
inductive Reachable : Heap → Prop where
  | init (heap : Int) (blockOk : Bool) (s : Heap) :
      0 ≤ heap → initializeHeap heap blockOk = some s → Reachable s
  | call (s : Heap) (c : Call) : Reachable s → Reachable (step s c)

/-! ## Derived notions used in the statements -/

/-- The byte `x` lies in the range `[address, address + size)` of the block. -/
def covers (b : MemoryBlock) (x : Int) : Prop :=
  b.address ≤ x ∧ x < b.address + b.size

instance (b : MemoryBlock) (x : Int) : Decidable (covers b x) := by
  unfold covers; infer_instance

/-- Number of blocks of the list whose range contains the byte `x`. -/
def coverCount (l : List MemoryBlock) (x : Int) : Nat :=
  l.countP (fun b => decide (covers b x))

/-- Sum of the sizes of the blocks of a list. -/
def totalSize (l : List MemoryBlock) : Int :=
  (l.map (fun b => b.size)).sum

/-- The `(address, size)` pairs of a list of blocks, in list order. -/
def segments (l : List MemoryBlock) : List (Int × Int) :=
  l.map (fun b => (b.address, b.size))

/-- The integer `x` is the value of a 32-bit `int`. -/
def inInt (x : Int) : Prop :=
  -2147483648 ≤ x ∧ x ≤ 2147483647

instance (x : Int) : Decidable (inInt x) := by
  unfold inInt; infer_instance

/-- The block lies in the non-negative range of `int`: no sum formed from its fields
by the coalescing pass overflows. -/
def fitsInt (b : MemoryBlock) : Prop :=
  0 ≤ b.address ∧ 0 ≤ b.size ∧ b.address + b.size ≤ 2147483647

instance (b : MemoryBlock) : Decidable (fitsInt b) := by
  unfold fitsInt; infer_instance

/-- The coalescing pass of `mergeFrom` computed without wrap-around; the two agree as
long as no sum leaves the range of `int` (`mergeFrom_eq_exact`). -/
def mergeFromExact (p : MemoryBlock) : List MemoryBlock → List MemoryBlock
  | [] => [p]
  | q :: rest =>
    if p.address + p.size = q.address then
      mergeFromExact { p with size := p.size + q.size } rest
    else p :: mergeFromExact q rest

/-- The pass of `mergeFreeBlocks` computed without wrap-around. -/
def mergeFreeBlocksExact : List MemoryBlock → List MemoryBlock
  | [] => []
  | p :: rest => mergeFromExact p rest

/-- The free list that `allocateMemory` leaves when the first-fit walk stops at the block
`b`, between `pre` and `post`: `b` has given up its first `n` bytes. -/
def carve (pre : List MemoryBlock) (b : MemoryBlock) (post : List MemoryBlock) (n : Int) :
    List MemoryBlock :=
  if wrap32 (b.size - n) = 0 then pre ++ post
  else pre ++ { b with address := wrap32 (b.address + n), size := wrap32 (b.size - n) } :: post

/-- The free list of `carve` computed without wrap-around. -/
def takeFrom (pre : List MemoryBlock) (b : MemoryBlock) (post : List MemoryBlock) (n : Int) :
    List MemoryBlock :=
  if b.size - n = 0 then pre ++ post
  else pre ++ { b with address := b.address + n, size := b.size - n } :: post

/-- The free list with the block `b` put immediately before the first block whose
address is at least that of `b`, at the end when there is none. -/
def insertByAddress (b : MemoryBlock) (l : List MemoryBlock) : List MemoryBlock :=
  l.takeWhile (fun c => decide (c.address < b.address)) ++
    b :: l.dropWhile (fun c => decide (c.address < b.address))

/-! ## The invariant of the reachable states -/

/-- What holds of the globals between any two calls. -/
structure Inv (s : Heap) : Prop where
  heap_pos : 0 < s.heapMemory
  free_pos : ∀ b ∈ s.freeBlocks, 0 < b.size
  free_sep : s.freeBlocks.Pairwise (fun a b => a.address + a.size < b.address)
  alloc_pos : ∀ b ∈ s.allocatedBlocks, 0 < b.size
  alloc_mem : ∀ b ∈ s.allocatedBlocks, b.memory = s.heapMemory + b.address
  cover : ∀ x, coverCount s.freeBlocks x + coverCount s.allocatedBlocks x =
    if 0 ≤ x ∧ x < 1024 then 1 else 0
  total : totalSize s.freeBlocks + totalSize s.allocatedBlocks = 1024

/-! ## Example states -/

/-- The globals right after `initializeHeap`, the arena being at address 4096. -/
def freshHeap : Heap :=
  { heapMemory := 4096, freeBlocks := [⟨0, 1024, 0⟩], allocatedBlocks := [] }

/-- The globals after `initializeHeap` and `allocateMemory(100)` (scenario A). -/
def scenarioA : Heap :=
  { heapMemory := 4096, freeBlocks := [⟨100, 924, 0⟩], allocatedBlocks := [⟨0, 100, 4096⟩] }

/-- The globals after `initializeHeap`, `allocateMemory(100)`, `allocateMemory(50)`,
`allocateMemory(30)` and the release of the second block. -/
def scenarioHole : Heap :=
  { heapMemory := 4096,
    freeBlocks := [⟨100, 50, 4196⟩, ⟨180, 844, 0⟩],
    allocatedBlocks := [⟨0, 100, 4096⟩, ⟨150, 30, 4246⟩] }

/-- The globals after `initializeHeap`, `allocateMemory(500)` and `allocateMemory(524)`
(scenario D). -/
def scenarioD : Heap :=
  { heapMemory := 4096, freeBlocks := [],
    allocatedBlocks := [⟨0, 500, 4096⟩, ⟨500, 524, 4596⟩] }

/-- The globals after `initializeHeap`, `allocateMemory(100)` and the release of that
block (scenario C); the free record is the released one and still holds its handle. -/
def scenarioC : Heap :=
  { heapMemory := 4096, freeBlocks := [⟨0, 1024, 4096⟩], allocatedBlocks := [] }

/-- A state (not a reachable one) in which the block of an allocated entry starts at
the address of a free block. -/
def staleState : Heap :=
  { heapMemory := 4096,
    freeBlocks := [⟨0, 100, 0⟩, ⟨200, 824, 0⟩],
    allocatedBlocks := [⟨100, 100, 4196⟩, ⟨200, 50, 4296⟩] }

/-- A state (not a reachable one) with a free block so high in the range of `int` that
carving 60 bytes out of it overflows its address. -/
def overflowState : Heap :=
  { heapMemory := 4096, freeBlocks := [⟨2147483600, 100, 0⟩], allocatedBlocks := [] }

/-- A run of three contiguous blocks, with fields that are values of `int`, whose sizes
add up to `2 ^ 31`. -/
def overflowRun : List MemoryBlock :=
  [⟨0, 10, 0⟩, ⟨10, 2147483637, 0⟩, ⟨2147483647, 1, 0⟩]

/-! ## The driver -/

/-- One round of the menu loop of `main`, as read by its calls of `scanf`: choice 1 with
the size (and the outcome of the `malloc` inside `allocateMemory`), choice 2 with the
index, choice 3, or any other choice that does not end the loop. -/
inductive MenuCommand where
  | allocate (size : Int) (mallocOk : Bool)
  | free (index : Int)
  | display
  | other
  deriving DecidableEq

/-- The locals of `main` together with the globals: the array `allocatedMemory`, of
capacity 20, and the counter `allocationCount`. -/
structure Driver where
  heap : Heap
  allocatedMemory : List Int
  allocationCount : Nat
  deriving DecidableEq

/-- The outcome of a part of a run of `main`: the state reached, or the index of a store
`allocatedMemory[index] = ...` outside the array, after which the behaviour of the
program is undefined. -/
inductive Run where
  | ok (d : Driver)
  | outOfBounds (index : Nat)
  deriving DecidableEq

/-- One round of the loop of `main`.  Choice 1 stores the result of `allocateMemory` at
index `allocationCount`, without a check, and increments the counter when the result is
not `NULL`; choice 2 checks `0 <= index < allocationCount` before it frees and clears
the entry. -/
def menuStep (d : Driver) : MenuCommand → Run
  | .allocate size mallocOk =>
    if d.allocationCount < 20 then
      let r := allocateMemory d.heap size mallocOk
      .ok { heap := r.2,
            allocatedMemory := d.allocatedMemory.set d.allocationCount r.1,
            allocationCount :=
              if r.1 ≠ 0 then d.allocationCount + 1 else d.allocationCount }
    else .outOfBounds d.allocationCount
  | .free index =>
    if 0 ≤ index ∧ index < d.allocationCount then
      .ok { d with
            heap := (freeMemory d.heap (d.allocatedMemory.getD index.toNat 0)).2,
            allocatedMemory := d.allocatedMemory.set index.toNat 0 }
    else .ok d
  | .display => .ok d
  | .other => .ok d

/-- The loop of `main` over the commands entered before the choice 4. -/
def menuLoop : Driver → List MenuCommand → Run
  | d, [] => .ok d
  | d, c :: cs =>
    match menuStep d c with
    | .ok d' => menuLoop d' cs
    | .outOfBounds i => .outOfBounds i

/-- Source `main`: `none` when `initializeHeap` exits, otherwise the outcome of the menu
loop started with an empty tracking array and the counter at 0. -/
def main (heap : Int) (blockOk : Bool) (cmds : List MenuCommand) : Option Run :=
  (initializeHeap heap blockOk).map
    (fun s => menuLoop { heap := s, allocatedMemory := List.replicate 20 0,
                         allocationCount := 0 } cmds)

/-! ## The list walk -/

theorem advance_eq (cond : MemoryBlock → Bool) (l : List MemoryBlock) :
    advance cond l = (l.takeWhile cond, l.dropWhile cond) := by
  induction l with
  | nil => rfl
  | cons b rest ih =>
    by_cases h : cond b = true
    · simp [advance, h, ih, List.takeWhile_cons, List.dropWhile_cons]
    · simp [advance, h, List.takeWhile_cons, List.dropWhile_cons]

theorem advance_append (cond : MemoryBlock → Bool) (l : List MemoryBlock) :
    (advance cond l).1 ++ (advance cond l).2 = l := by
  rw [advance_eq]; exact List.takeWhile_append_dropWhile cond l

theorem advance_fst_mem (cond : MemoryBlock → Bool) (l : List MemoryBlock) :
    ∀ b ∈ (advance cond l).1, cond b = true := by
  rw [advance_eq]; intro b hb; exact List.mem_takeWhile_imp hb

theorem advance_snd_head (cond : MemoryBlock → Bool) (l : List MemoryBlock)
    (c : MemoryBlock) (rest : List MemoryBlock) (h : (advance cond l).2 = c :: rest) :
    cond c = false := by
  induction l with
  | nil => simp [advance] at h
  | cons b tl ih =>
    by_cases hb : cond b = true
    · simp [advance, hb] at h; exact ih h
    · simp [advance, hb] at h
      obtain ⟨rfl, -⟩ := h
      simpa using hb

/-- The walk stops at the first block failing the condition. -/
theorem advance_of_split (cond : MemoryBlock → Bool) (pre : List MemoryBlock)
    (b : MemoryBlock) (post : List MemoryBlock)
    (hpre : ∀ x ∈ pre, cond x = true) (hb : cond b = false) :
    advance cond (pre ++ b :: post) = (pre, b :: post) := by
  induction pre with
  | nil => simp [advance, hb]
  | cons a tl ih =>
    have ha : cond a = true := hpre a (List.mem_cons_self _ _)
    have := ih (fun x hx => hpre x (List.mem_cons_of_mem _ hx))
    simp [advance, ha, this]

theorem advance_all (cond : MemoryBlock → Bool) (l : List MemoryBlock)
    (h : ∀ x ∈ l, cond x = true) : advance cond l = (l, []) := by
  induction l with
  | nil => rfl
  | cons a tl ih =>
    have ha : cond a = true := h a (List.mem_cons_self _ _)
    have := ih (fun x hx => h x (List.mem_cons_of_mem _ hx))
    simp [advance, ha, this]

/-! ## Coverage and total size of lists -/

theorem coverCount_nil (x : Int) : coverCount [] x = 0 := rfl

theorem coverCount_cons (b : MemoryBlock) (l : List MemoryBlock) (x : Int) :
    coverCount (b :: l) x = coverCount l x + (if covers b x then 1 else 0) := by
  simp [coverCount, List.countP_cons]

theorem coverCount_append (l₁ l₂ : List MemoryBlock) (x : Int) :
    coverCount (l₁ ++ l₂) x = coverCount l₁ x + coverCount l₂ x := by
  simp [coverCount, List.countP_append]

theorem coverCount_pos_of_mem {l : List MemoryBlock} {b : MemoryBlock} {x : Int}
    (hb : b ∈ l) (hx : covers b x) : 0 < coverCount l x := by
  unfold coverCount
  rw [List.countP_pos_iff]
  exact ⟨b, hb, by simpa using hx⟩

theorem exists_of_coverCount_pos {l : List MemoryBlock} {x : Int}
    (h : 0 < coverCount l x) : ∃ b ∈ l, covers b x := by
  unfold coverCount at h
  rw [List.countP_pos_iff] at h
  obtain ⟨b, hb, hx⟩ := h
  exact ⟨b, hb, by simpa using hx⟩

theorem totalSize_nil : totalSize [] = 0 := rfl

theorem totalSize_cons (b : MemoryBlock) (l : List MemoryBlock) :
    totalSize (b :: l) = b.size + totalSize l := by
  simp [totalSize]

theorem totalSize_append (l₁ l₂ : List MemoryBlock) :
    totalSize (l₁ ++ l₂) = totalSize l₁ + totalSize l₂ := by
  simp [totalSize]

/-- Blocks whose ranges are counted at most once are pairwise disjoint. -/
theorem pairwise_disjoint_of_coverCount_le_one (l : List MemoryBlock)
    (h : ∀ x, coverCount l x ≤ 1) :
    l.Pairwise (fun b c => ∀ x, ¬ (covers b x ∧ covers c x)) := by
  induction l with
  | nil => exact List.Pairwise.nil
  | cons a tl ih =>
    refine List.Pairwise.cons ?_ (ih ?_)
    · intro c hc x ⟨hax, hcx⟩
      have h1 := h x
      rw [coverCount_cons, if_pos hax] at h1
      have := coverCount_pos_of_mem hc hcx
      omega
    · intro x
      have h1 := h x
      rw [coverCount_cons] at h1
      omega

/-! ## The coalescing pass -/

/-- Every block left by the pass starts where some block of the input starts. -/
theorem mergeFromExact_address (rest : List MemoryBlock) :
    ∀ (p b : MemoryBlock), b ∈ mergeFromExact p rest → ∃ c ∈ p :: rest, b.address = c.address := by
  induction rest with
  | nil =>
    intro p b hb
    simp [mergeFromExact] at hb
    exact ⟨p, by simp, by rw [hb]⟩
  | cons q tl ih =>
    intro p b hb
    unfold mergeFromExact at hb
    split_ifs at hb with h
    · obtain ⟨c, hc, hbc⟩ := ih _ b hb
      rcases List.mem_cons.1 hc with rfl | hc
      · exact ⟨p, by simp, hbc⟩
      · exact ⟨c, by simp [hc], hbc⟩
    · rcases List.mem_cons.1 hb with rfl | hb
      · exact ⟨b, by simp, rfl⟩
      · obtain ⟨c, hc, hbc⟩ := ih _ b hb
        exact ⟨c, List.mem_cons_of_mem _ hc, hbc⟩

theorem mergeFromExact_size_pos (rest : List MemoryBlock) :
    ∀ (p : MemoryBlock), 0 < p.size → (∀ q ∈ rest, 0 < q.size) →
      ∀ b ∈ mergeFromExact p rest, 0 < b.size := by
  induction rest with
  | nil =>
    intro p hp _ b hb
    simp [mergeFromExact] at hb
    rw [hb]; exact hp
  | cons q tl ih =>
    intro p hp hrest b hb
    have hq : 0 < q.size := hrest q (List.mem_cons_self _ _)
    have htl : ∀ r ∈ tl, 0 < r.size := fun r hr => hrest r (List.mem_cons_of_mem _ hr)
    unfold mergeFromExact at hb
    split_ifs at hb with h
    · exact ih _ (by show 0 < p.size + q.size; omega) htl b hb
    · rcases List.mem_cons.1 hb with rfl | hb
      · exact hp
      · exact ih q hq htl b hb

theorem mergeFromExact_totalSize (rest : List MemoryBlock) :
    ∀ (p : MemoryBlock), totalSize (mergeFromExact p rest) = totalSize (p :: rest) := by
  induction rest with
  | nil => intro p; rfl
  | cons q tl ih =>
    intro p
    unfold mergeFromExact
    split_ifs with h
    · rw [ih]; simp only [totalSize_cons]; ring
    · rw [totalSize_cons, ih, totalSize_cons, totalSize_cons, totalSize_cons]

theorem mergeFromExact_coverCount (rest : List MemoryBlock) (x : Int) :
    ∀ (p : MemoryBlock), 0 ≤ p.size → (∀ q ∈ rest, 0 ≤ q.size) →
      coverCount (mergeFromExact p rest) x = coverCount (p :: rest) x := by
  induction rest with
  | nil => intro p _ _; rfl
  | cons q tl ih =>
    intro p hp hrest
    have hq : 0 ≤ q.size := hrest q (List.mem_cons_self _ _)
    have htl : ∀ r ∈ tl, 0 ≤ r.size := fun r hr => hrest r (List.mem_cons_of_mem _ hr)
    unfold mergeFromExact
    split_ifs with h
    · rw [ih _ (by show 0 ≤ p.size + q.size; omega) htl]
      simp only [coverCount_cons, covers]
      split_ifs <;> omega
    · rw [coverCount_cons, ih q hq htl, coverCount_cons, coverCount_cons, coverCount_cons]

/-- On a list whose blocks have positive sizes and do not overlap their successors, the
pass leaves blocks that are separated by at least one byte. -/
theorem mergeFromExact_separated (rest : List MemoryBlock) :
    ∀ (p : MemoryBlock), 0 < p.size → (∀ q ∈ rest, 0 < q.size) →
      (p :: rest).Pairwise (fun a b => a.address + a.size ≤ b.address) →
      (mergeFromExact p rest).Pairwise (fun a b => a.address + a.size < b.address) := by
  induction rest with
  | nil => intro p _ _ _; simp [mergeFromExact]
  | cons q tl ih =>
    intro p hp hrest hpw
    have hq : 0 < q.size := hrest q (List.mem_cons_self _ _)
    have htl : ∀ r ∈ tl, 0 < r.size := fun r hr => hrest r (List.mem_cons_of_mem _ hr)
    rw [List.pairwise_cons] at hpw
    obtain ⟨hp_all, hpw'⟩ := hpw
    have hq_all := (List.pairwise_cons.1 hpw').1
    unfold mergeFromExact
    split_ifs with h
    · apply ih _ (by show 0 < p.size + q.size; omega) htl
      rw [List.pairwise_cons]
      refine ⟨?_, (List.pairwise_cons.1 hpw').2⟩
      intro r hr
      have := hq_all r hr
      show p.address + (p.size + q.size) ≤ r.address
      omega
    · rw [List.pairwise_cons]
      refine ⟨?_, ih q hq htl hpw'⟩
      intro b hb
      obtain ⟨c, hc, hbc⟩ := mergeFromExact_address tl q b hb
      have hpq := hp_all q (List.mem_cons_self _ _)
      rcases List.mem_cons.1 hc with rfl | hc
      · omega
      · have := hq_all c hc
        omega

/-- The pass changes nothing on a list without a block that ends where its successor
starts. -/
theorem mergeFromExact_of_chain (rest : List MemoryBlock) :
    ∀ (p : MemoryBlock), List.Chain (fun a b => a.address + a.size ≠ b.address) p rest →
      mergeFromExact p rest = p :: rest := by
  induction rest with
  | nil => intro p _; rfl
  | cons q tl ih =>
    intro p hc
    rw [List.chain_cons] at hc
    unfold mergeFromExact
    rw [if_neg hc.1, ih q hc.2]

theorem mergeFreeBlocksExact_size_pos (l : List MemoryBlock) (h : ∀ q ∈ l, 0 < q.size) :
    ∀ b ∈ mergeFreeBlocksExact l, 0 < b.size := by
  cases l with
  | nil => intro b hb; simp [mergeFreeBlocksExact] at hb
  | cons p rest =>
    exact mergeFromExact_size_pos rest p (h p (List.mem_cons_self _ _))
      (fun q hq => h q (List.mem_cons_of_mem _ hq))

theorem mergeFreeBlocksExact_totalSize (l : List MemoryBlock) :
    totalSize (mergeFreeBlocksExact l) = totalSize l := by
  cases l with
  | nil => rfl
  | cons p rest => exact mergeFromExact_totalSize rest p

theorem mergeFreeBlocksExact_coverCount (l : List MemoryBlock) (h : ∀ q ∈ l, 0 < q.size)
    (x : Int) : coverCount (mergeFreeBlocksExact l) x = coverCount l x := by
  cases l with
  | nil => rfl
  | cons p rest =>
    exact mergeFromExact_coverCount rest x p (le_of_lt (h p (List.mem_cons_self _ _)))
      (fun q hq => le_of_lt (h q (List.mem_cons_of_mem _ hq)))

theorem mergeFreeBlocksExact_separated (l : List MemoryBlock) (h : ∀ q ∈ l, 0 < q.size)
    (hpw : l.Pairwise (fun a b => a.address + a.size ≤ b.address)) :
    (mergeFreeBlocksExact l).Pairwise (fun a b => a.address + a.size < b.address) := by
  cases l with
  | nil => exact List.Pairwise.nil
  | cons p rest =>
    exact mergeFromExact_separated rest p (h p (List.mem_cons_self _ _))
      (fun q hq => h q (List.mem_cons_of_mem _ hq)) hpw

theorem mergeFreeBlocksExact_of_chain (l : List MemoryBlock)
    (h : l.Chain' (fun a b => a.address + a.size ≠ b.address)) : mergeFreeBlocksExact l = l := by
  cases l with
  | nil => rfl
  | cons p rest => exact mergeFromExact_of_chain rest p h

/-! ## Arithmetic on `int` -/

theorem wrap32_of_inInt (x : Int) (h : inInt x) : wrap32 x = x := by
  unfold inInt at h
  unfold wrap32
  omega

theorem wrap32_inInt (x : Int) : inInt (wrap32 x) := by
  unfold inInt wrap32
  omega

/-- Two integers that differ by a multiple of `2 ^ 32` are held by the same `int`. -/
theorem wrap32_congr (x y k : Int) (h : x = y + 4294967296 * k) : wrap32 x = wrap32 y := by
  unfold wrap32
  omega

theorem wrap32_add_wrap32 (x y : Int) : wrap32 (x + wrap32 y) = wrap32 (x + y) := by
  unfold wrap32
  omega

theorem carve_eq_takeFrom (pre : List MemoryBlock) (b : MemoryBlock) (post : List MemoryBlock)
    (n : Int) (h1 : inInt (b.address + n)) (h2 : inInt (b.size - n)) :
    carve pre b post n = takeFrom pre b post n := by
  unfold carve takeFrom
  rw [wrap32_of_inInt _ h1, wrap32_of_inInt _ h2]

/-- On blocks in the non-negative range of `int` the coalescing pass never overflows. -/
theorem mergeFrom_eq_exact (rest : List MemoryBlock) :
    ∀ (p : MemoryBlock), fitsInt p → (∀ q ∈ rest, fitsInt q) →
      mergeFrom p rest = mergeFromExact p rest := by
  induction rest with
  | nil => intro p _ _; rfl
  | cons q tl ih =>
    intro p hp hrest
    have hq := hrest q (List.mem_cons_self _ _)
    have htl : ∀ r ∈ tl, fitsInt r := fun r hr => hrest r (List.mem_cons_of_mem _ hr)
    unfold fitsInt at hp hq
    have hend : wrap32 (p.address + p.size) = p.address + p.size :=
      wrap32_of_inInt _ ⟨by omega, by omega⟩
    rw [mergeFrom, mergeFromExact, hend]
    by_cases h : p.address + p.size = q.address
    · have hsum : wrap32 (p.size + q.size) = p.size + q.size :=
        wrap32_of_inInt _ ⟨by omega, by omega⟩
      rw [if_pos h, if_pos h, hsum]
      apply ih _ _ htl
      show 0 ≤ p.address ∧ 0 ≤ p.size + q.size ∧ p.address + (p.size + q.size) ≤ 2147483647
      omega
    · rw [if_neg h, if_neg h, ih q hq htl]

theorem mergeFreeBlocks_eq_exact (l : List MemoryBlock) (h : ∀ q ∈ l, fitsInt q) :
    mergeFreeBlocks l = mergeFreeBlocksExact l := by
  cases l with
  | nil => rfl
  | cons p rest =>
    exact mergeFrom_eq_exact rest p (h p (List.mem_cons_self _ _))
      (fun q hq => h q (List.mem_cons_of_mem _ hq))

/-- The adjacency test and the size sum of the pass wrap around: a block that ends at
`2 ^ 31` absorbs the block at the lowest address of `int`. -/
theorem mergeFreeBlocks_wraps :
    mergeFreeBlocks [⟨2147483647, 1, 0⟩, ⟨-2147483648, 5, 0⟩] = [⟨2147483647, 6, 0⟩] := by
  decide

/-! ## The two operations, path by path -/

theorem allocateMemory_invalid (s : Heap) (n : Int) (ok : Bool) (hn : n ≤ 0) :
    allocateMemory s n ok = (0, s) := by
  simp [allocateMemory, hn]

theorem allocateMemory_fit (s : Heap) (n : Int) (pre : List MemoryBlock) (b : MemoryBlock)
    (post : List MemoryBlock) (hn : 0 < n) (hsplit : s.freeBlocks = pre ++ b :: post)
    (hpre : ∀ x ∈ pre, x.size < n) (hb : n ≤ b.size) :
    allocateMemory s n true =
      (s.heapMemory + b.address,
        { s with freeBlocks := carve pre b post n,
                 allocatedBlocks :=
                   s.allocatedBlocks ++ [⟨b.address, n, s.heapMemory + b.address⟩] }) := by
  have hw : advance (fun c => decide (n > c.size)) s.freeBlocks = (pre, b :: post) := by
    rw [hsplit]
    apply advance_of_split
    · intro x hx; simpa using hpre x hx
    · simpa using hb
  unfold allocateMemory
  rw [if_neg (by omega), hw]
  simp only [carve]
  rfl

theorem allocateMemory_noMalloc (s : Heap) (n : Int) : allocateMemory s n false = (0, s) := by
  unfold allocateMemory
  by_cases hn : n ≤ 0
  · rw [if_pos hn]
  · rw [if_neg hn]
    split <;> simp

theorem allocateMemory_noFit (s : Heap) (n : Int) (ok : Bool)
    (h : ∀ b ∈ s.freeBlocks, b.size < n) : allocateMemory s n ok = (0, s) := by
  have hw : advance (fun c => decide (n > c.size)) s.freeBlocks = (s.freeBlocks, []) := by
    apply advance_all
    intro x hx; simpa using h x hx
  unfold allocateMemory
  rw [hw]
  simp

/-- The first-fit walk either finds no block, or stops at the first block of size at
least `n`. -/
theorem firstFit_split (l : List MemoryBlock) (n : Int) :
    (∀ b ∈ l, b.size < n) ∨
      ∃ pre b post, l = pre ++ b :: post ∧ (∀ x ∈ pre, x.size < n) ∧ n ≤ b.size := by
  induction l with
  | nil => left; simp
  | cons a tl ih =>
    by_cases ha : a.size < n
    · rcases ih with h | ⟨pre, b, post, h1, h2, h3⟩
      · left
        intro b hb
        rcases List.mem_cons.1 hb with rfl | hb
        · exact ha
        · exact h b hb
      · right
        refine ⟨a :: pre, b, post, by simp [h1], ?_, h3⟩
        intro x hx
        rcases List.mem_cons.1 hx with rfl | hx
        · exact ha
        · exact h2 x hx
    · right
      exact ⟨[], a, tl, rfl, by simp, by omega⟩

/-- Every call of `allocateMemory` either fails without touching the globals or carves
the request out of the first block that fits. -/
theorem allocateMemory_cases (s : Heap) (n : Int) (ok : Bool) :
    allocateMemory s n ok = (0, s) ∨
      ∃ pre b post, 0 < n ∧ ok = true ∧ s.freeBlocks = pre ++ b :: post ∧
        (∀ x ∈ pre, x.size < n) ∧ n ≤ b.size ∧
        allocateMemory s n ok =
          (s.heapMemory + b.address,
            { s with freeBlocks := carve pre b post n,
                     allocatedBlocks :=
                       s.allocatedBlocks ++ [⟨b.address, n, s.heapMemory + b.address⟩] }) := by
  by_cases hn : n ≤ 0
  · left; exact allocateMemory_invalid s n ok hn
  cases ok with
  | false => left; exact allocateMemory_noMalloc s n
  | true =>
    rcases firstFit_split s.freeBlocks n with h | ⟨pre, b, post, h1, h2, h3⟩
    · left; exact allocateMemory_noFit s n true h
    · right
      exact ⟨pre, b, post, by omega, rfl, h1, h2, h3,
        allocateMemory_fit s n pre b post (by omega) h1 h2 h3⟩

theorem freeMemory_null (s : Heap) : freeMemory s 0 = (.nullPointer, s) := by
  simp [freeMemory]

theorem freeMemory_absent (s : Heap) (h : Int) (hh : h ≠ 0)
    (habs : ∀ b ∈ s.allocatedBlocks, b.memory ≠ h) :
    freeMemory s h = (.notAllocated, s) := by
  have hw : advance (fun b => decide (b.memory ≠ h)) s.allocatedBlocks =
      (s.allocatedBlocks, []) := by
    apply advance_all
    intro x hx; simpa using habs x hx
  unfold freeMemory
  rw [if_neg hh, hw]

/-- The warning path of `freeMemory`: the handle is found at the block `b` of the
allocated list, between `pre` and `post`, and the walk over the free list stops at a
block with the address of `b`. -/
theorem freeMemory_found_dup (s : Heap) (h : Int) (pre : List MemoryBlock) (b : MemoryBlock)
    (post : List MemoryBlock) (hh : h ≠ 0) (hsplit : s.allocatedBlocks = pre ++ b :: post)
    (hpre : ∀ x ∈ pre, x.memory ≠ h) (hb : b.memory = h)
    (c : MemoryBlock) (tl : List MemoryBlock)
    (hd : s.freeBlocks.dropWhile (fun c => decide (c.address < b.address)) = c :: tl)
    (hc : c.address = b.address) :
    freeMemory s h = (.alreadyFreed, { s with allocatedBlocks := pre ++ post }) := by
  have hw : advance (fun c => decide (c.memory ≠ h)) s.allocatedBlocks = (pre, b :: post) := by
    rw [hsplit]
    apply advance_of_split
    · intro x hx; simpa using hpre x hx
    · simpa using hb
  unfold freeMemory
  rw [if_neg hh, hw]
  simp only [advance_eq, hd, hc, if_true]

/-- The releasing path of `freeMemory`: the handle is found at the block `b` of the
allocated list, between `pre` and `post`, and the walk over the free list does not stop
at a block with the address of `b`. -/
theorem freeMemory_found (s : Heap) (h : Int) (pre : List MemoryBlock) (b : MemoryBlock)
    (post : List MemoryBlock) (hh : h ≠ 0) (hsplit : s.allocatedBlocks = pre ++ b :: post)
    (hpre : ∀ x ∈ pre, x.memory ≠ h) (hb : b.memory = h)
    (hd : ∀ c tl, s.freeBlocks.dropWhile (fun c => decide (c.address < b.address)) = c :: tl →
      c.address ≠ b.address) :
    freeMemory s h =
      (.released, { s with allocatedBlocks := pre ++ post,
                           freeBlocks := mergeFreeBlocks (insertByAddress b s.freeBlocks) }) := by
  have hw : advance (fun c => decide (c.memory ≠ h)) s.allocatedBlocks = (pre, b :: post) := by
    rw [hsplit]
    apply advance_of_split
    · intro x hx; simpa using hpre x hx
    · simpa using hb
  unfold freeMemory
  rw [if_neg hh, hw]
  simp only [advance_eq, insertByAddress]
  cases hd' : List.dropWhile (fun c => decide (c.address < b.address)) s.freeBlocks with
  | nil => rfl
  | cons c tl =>
    have := hd c tl hd'
    simp only [if_neg this]

/-- The handle lookup either fails or stops at the first block carrying the handle. -/
theorem lookup_split (l : List MemoryBlock) (h : Int) :
    (∀ b ∈ l, b.memory ≠ h) ∨
      ∃ pre b post, l = pre ++ b :: post ∧ (∀ x ∈ pre, x.memory ≠ h) ∧ b.memory = h := by
  induction l with
  | nil => left; simp
  | cons a tl ih =>
    by_cases ha : a.memory = h
    · right
      exact ⟨[], a, tl, rfl, by simp, ha⟩
    · rcases ih with h0 | ⟨pre, b, post, h1, h2, h3⟩
      · left
        intro b hb
        rcases List.mem_cons.1 hb with rfl | hb
        · exact ha
        · exact h0 b hb
      · right
        refine ⟨a :: pre, b, post, by simp [h1], ?_, h3⟩
        intro x hx
        rcases List.mem_cons.1 hx with rfl | hx
        · exact ha
        · exact h2 x hx

/-! ## The invariant holds in the reachable states -/

theorem Inv.of_initializeHeap (heap : Int) (blockOk : Bool) (s : Heap) (hheap : 0 ≤ heap)
    (h : initializeHeap heap blockOk = some s) : Inv s := by
  unfold initializeHeap at h
  split_ifs at h with h0 h1
  simp only [Option.some.injEq] at h
  subst h
  refine ⟨by show 0 < heap; omega, by simp, by simp, by simp, by simp, ?_, by simp [totalSize]⟩
  intro x
  simp only [coverCount_cons, coverCount_nil, covers]
  split_ifs <;> omega

/-- A free block and an allocated block never contain the same byte. -/
theorem Inv.free_alloc_disjoint {s : Heap} (hs : Inv s) {c b : MemoryBlock}
    (hc : c ∈ s.freeBlocks) (hb : b ∈ s.allocatedBlocks) (x : Int)
    (hcx : covers c x) (hbx : covers b x) : False := by
  have h1 := coverCount_pos_of_mem hc hcx
  have h2 := coverCount_pos_of_mem hb hbx
  have h3 := hs.cover x
  split_ifs at h3 <;> omega

/-- Every block lies inside the arena. -/
theorem Inv.blocks_in_arena {s : Heap} (hs : Inv s) :
    ∀ b ∈ s.freeBlocks ++ s.allocatedBlocks,
      0 ≤ b.address ∧ 0 < b.size ∧ b.address + b.size ≤ 1024 := by
  intro b hb
  have hpos : 0 < b.size := by
    rcases List.mem_append.1 hb with h1 | h1
    · exact hs.free_pos b h1
    · exact hs.alloc_pos b h1
  have key : ∀ x, covers b x → 0 ≤ x ∧ x < 1024 := by
    intro x hx
    have h1 := hs.cover x
    rw [← coverCount_append] at h1
    have h2 := coverCount_pos_of_mem hb hx
    by_contra hne
    rw [if_neg hne] at h1
    omega
  have h1 := key b.address ⟨le_refl _, by omega⟩
  have h2 := key (b.address + b.size - 1) ⟨by omega, by omega⟩
  omega

/-- Every block lies in the non-negative range of `int`. -/
theorem Inv.fits {s : Heap} (hs : Inv s) :
    ∀ b ∈ s.freeBlocks ++ s.allocatedBlocks, fitsInt b := by
  intro b hb
  have := hs.blocks_in_arena b hb
  unfold fitsInt
  omega

/-- Carving a request out of a free block of the arena does not overflow. -/
theorem Inv.carve_eq {s : Heap} (hs : Inv s) (pre : List MemoryBlock) (b : MemoryBlock)
    (post : List MemoryBlock) (n : Int) (hb : b ∈ s.freeBlocks) (hn : 0 < n)
    (hfit : n ≤ b.size) : carve pre b post n = takeFrom pre b post n := by
  have := hs.blocks_in_arena b (List.mem_append_left _ hb)
  exact carve_eq_takeFrom pre b post n ⟨by omega, by omega⟩ ⟨by omega, by omega⟩

theorem takeFrom_mem (pre : List MemoryBlock) (b : MemoryBlock) (post : List MemoryBlock)
    (n : Int) (x : MemoryBlock) (hx : x ∈ takeFrom pre b post n) :
    x ∈ pre ∨ x ∈ post ∨
      (x = { b with address := b.address + n, size := b.size - n } ∧ b.size - n ≠ 0) := by
  unfold takeFrom at hx
  split_ifs at hx with h
  · rcases List.mem_append.1 hx with h1 | h1
    · exact Or.inl h1
    · exact Or.inr (Or.inl h1)
  · rcases List.mem_append.1 hx with h1 | h1
    · exact Or.inl h1
    · rcases List.mem_cons.1 h1 with h2 | h2
      · exact Or.inr (Or.inr ⟨h2, h⟩)
      · exact Or.inr (Or.inl h2)

theorem takeFrom_coverCount (pre : List MemoryBlock) (b : MemoryBlock)
    (post : List MemoryBlock) (n m : Int) (hn : 0 < n) (hb : n ≤ b.size) (x : Int) :
    coverCount (takeFrom pre b post n) x + coverCount [⟨b.address, n, m⟩] x =
      coverCount (pre ++ b :: post) x := by
  unfold takeFrom
  split_ifs with h
  · simp only [coverCount_append, coverCount_cons, coverCount_nil, covers]
    split_ifs <;> omega
  · simp only [coverCount_append, coverCount_cons, coverCount_nil, covers]
    split_ifs <;> omega

theorem takeFrom_totalSize (pre : List MemoryBlock) (b : MemoryBlock)
    (post : List MemoryBlock) (n : Int) :
    totalSize (takeFrom pre b post n) + n = totalSize (pre ++ b :: post) := by
  unfold takeFrom
  split_ifs with h
  · simp only [totalSize_append, totalSize_cons]; omega
  · simp only [totalSize_append, totalSize_cons]; omega

theorem takeFrom_separated (pre : List MemoryBlock) (b : MemoryBlock)
    (post : List MemoryBlock) (n : Int) (hn : 0 < n)
    (h : (pre ++ b :: post).Pairwise (fun a c => a.address + a.size < c.address)) :
    (takeFrom pre b post n).Pairwise (fun a c => a.address + a.size < c.address) := by
  rw [List.pairwise_append, List.pairwise_cons] at h
  obtain ⟨h1, ⟨h2, h3⟩, h4⟩ := h
  unfold takeFrom
  split_ifs with h0
  · rw [List.pairwise_append]
    exact ⟨h1, h3, fun a ha c hc => h4 a ha c (List.mem_cons_of_mem _ hc)⟩
  · rw [List.pairwise_append, List.pairwise_cons]
    refine ⟨h1, ⟨?_, h3⟩, ?_⟩
    · intro c hc
      have := h2 c hc
      show b.address + n + (b.size - n) < c.address
      omega
    · intro a ha c hc
      rcases List.mem_cons.1 hc with rfl | hc
      · have := h4 a ha b (List.mem_cons_self _ _)
        show a.address + a.size < b.address + n
        omega
      · exact h4 a ha c (List.mem_cons_of_mem _ hc)

theorem Inv.allocate {s : Heap} (hs : Inv s) (n : Int) (ok : Bool) :
    Inv (allocateMemory s n ok).2 := by
  rcases allocateMemory_cases s n ok with h | ⟨pre, b, post, hn, -, hsplit, -, hb, h⟩
  · rw [h]; exact hs
  · have hbmem : b ∈ s.freeBlocks := by rw [hsplit]; simp
    rw [h, hs.carve_eq pre b post n hbmem hn hb]
    refine ⟨hs.heap_pos, ?_, ?_, ?_, ?_, ?_, ?_⟩
    · intro x hx
      rcases takeFrom_mem pre b post n x hx with h1 | h1 | ⟨rfl, h1⟩
      · exact hs.free_pos x (by rw [hsplit]; simp [h1])
      · exact hs.free_pos x (by rw [hsplit]; simp [h1])
      · show 0 < b.size - n
        omega
    · exact takeFrom_separated pre b post n hn (hsplit ▸ hs.free_sep)
    · intro x hx
      rcases List.mem_append.1 hx with h1 | h1
      · exact hs.alloc_pos x h1
      · simp only [List.mem_singleton] at h1
        subst h1
        exact hn
    · intro x hx
      rcases List.mem_append.1 hx with h1 | h1
      · exact hs.alloc_mem x h1
      · simp only [List.mem_singleton] at h1
        subst h1
        rfl
    · intro x
      have h1 := takeFrom_coverCount pre b post n (s.heapMemory + b.address) hn hb x
      have h2 := hs.cover x
      rw [hsplit] at h2
      show coverCount (takeFrom pre b post n) x + coverCount (s.allocatedBlocks ++ _) x = _
      rw [coverCount_append]
      omega
    · have h1 := takeFrom_totalSize pre b post n
      have h2 := hs.total
      rw [hsplit] at h2
      show totalSize (takeFrom pre b post n) + totalSize (s.allocatedBlocks ++ _) = _
      rw [totalSize_append, totalSize_cons, totalSize_nil]
      show totalSize (takeFrom pre b post n) + (totalSize s.allocatedBlocks + (n + 0)) = 1024
      omega

/-- In an address-ordered list, the walk `while (curr->address < a)` stops in front of
blocks that all start at `a` or later. -/
theorem dropWhile_address_ge (l : List MemoryBlock) (a : Int)
    (hpos : ∀ b ∈ l, 0 < b.size)
    (hsep : l.Pairwise (fun p q => p.address + p.size < q.address)) :
    ∀ q ∈ l.dropWhile (fun c => decide (c.address < a)), a ≤ q.address := by
  induction l with
  | nil => simp
  | cons x tl ih =>
    rw [List.pairwise_cons] at hsep
    by_cases hx : x.address < a
    · rw [List.dropWhile_cons_of_pos (by simpa using hx)]
      exact ih (fun b hb => hpos b (List.mem_cons_of_mem _ hb)) hsep.2
    · rw [List.dropWhile_cons_of_neg (by simpa using hx)]
      intro q hq
      rcases List.mem_cons.1 hq with rfl | hq
      · omega
      · have h1 := hsep.1 q hq
        have h2 := hpos x (List.mem_cons_self _ _)
        omega

/-- Under the invariant no free block starts at the address of an allocated
block, so the walk of `freeMemory` never stops at a block with that address. -/
theorem Inv.no_dup {s : Heap} (hs : Inv s) {b : MemoryBlock} (hb : b ∈ s.allocatedBlocks) :
    ∀ c tl, s.freeBlocks.dropWhile (fun c => decide (c.address < b.address)) = c :: tl →
      c.address ≠ b.address := by
  intro c tl hd hc
  have hcmem : c ∈ s.freeBlocks :=
    (List.dropWhile_sublist _).subset (by rw [hd]; exact List.mem_cons_self _ _)
  have h1 := hs.free_pos c hcmem
  have h2 := hs.alloc_pos b hb
  exact hs.free_alloc_disjoint hcmem hb b.address ⟨by omega, by omega⟩ ⟨le_refl _, by omega⟩

theorem insertByAddress_mem (b : MemoryBlock) (l : List MemoryBlock) (x : MemoryBlock) :
    x ∈ insertByAddress b l ↔ x = b ∨ x ∈ l := by
  unfold insertByAddress
  constructor
  · intro hx
    rcases List.mem_append.1 hx with h | h
    · exact Or.inr ((List.takeWhile_sublist _).subset h)
    · rcases List.mem_cons.1 h with h | h
      · exact Or.inl h
      · exact Or.inr ((List.dropWhile_sublist _).subset h)
  · intro hx
    rcases hx with rfl | hx
    · simp
    · rw [← List.takeWhile_append_dropWhile (fun c => decide (c.address < b.address)) l] at hx
      rcases List.mem_append.1 hx with h | h
      · exact List.mem_append_left _ h
      · exact List.mem_append_right _ (List.mem_cons_of_mem _ h)

/-- Coalescing after putting a live block back does not overflow. -/
theorem Inv.merge_insert_eq {s : Heap} (hs : Inv s) {b : MemoryBlock}
    (hb : b ∈ s.allocatedBlocks) :
    mergeFreeBlocks (insertByAddress b s.freeBlocks) =
      mergeFreeBlocksExact (insertByAddress b s.freeBlocks) := by
  apply mergeFreeBlocks_eq_exact
  intro q hq
  rcases (insertByAddress_mem b s.freeBlocks q).1 hq with rfl | hq
  · exact hs.fits q (List.mem_append_right _ hb)
  · exact hs.fits q (List.mem_append_left _ hq)

theorem insertByAddress_coverCount (b : MemoryBlock) (l : List MemoryBlock) (x : Int) :
    coverCount (insertByAddress b l) x = coverCount l x + coverCount [b] x := by
  have h := congrArg (fun l => coverCount l x)
    (List.takeWhile_append_dropWhile (fun c => decide (c.address < b.address)) l)
  simp only [coverCount_append] at h
  unfold insertByAddress
  simp only [coverCount_append, coverCount_cons, coverCount_nil]
  omega

theorem insertByAddress_totalSize (b : MemoryBlock) (l : List MemoryBlock) :
    totalSize (insertByAddress b l) = totalSize l + b.size := by
  have h := congrArg totalSize
    (List.takeWhile_append_dropWhile (fun c => decide (c.address < b.address)) l)
  simp only [totalSize_append] at h
  unfold insertByAddress
  simp only [totalSize_append, totalSize_cons]
  omega

/-- Putting an allocated block back at its place by address gives a list whose blocks
do not overlap their successors. -/
theorem Inv.insert_separated {s : Heap} (hs : Inv s) {b : MemoryBlock}
    (hb : b ∈ s.allocatedBlocks) :
    (insertByAddress b s.freeBlocks).Pairwise (fun p q => p.address + p.size ≤ q.address) := by
  have hbpos := hs.alloc_pos b hb
  have hsplit := List.takeWhile_append_dropWhile (fun c => decide (c.address < b.address))
    s.freeBlocks
  have hsep := hs.free_sep
  rw [← hsplit, List.pairwise_append] at hsep
  obtain ⟨h1, h2, h3⟩ := hsep
  have hge := dropWhile_address_ge s.freeBlocks b.address hs.free_pos hs.free_sep
  unfold insertByAddress
  rw [List.pairwise_append, List.pairwise_cons]
  refine ⟨h1.imp (fun h => le_of_lt h), ⟨?_, h2.imp (fun h => le_of_lt h)⟩, ?_⟩
  · intro q hq
    have hqmem : q ∈ s.freeBlocks := (List.dropWhile_sublist _).subset hq
    have hqpos := hs.free_pos q hqmem
    have := hge q hq
    by_contra hlt
    exact hs.free_alloc_disjoint hqmem hb q.address ⟨le_refl _, by omega⟩ ⟨by omega, by omega⟩
  · intro p hp q hq
    rcases List.mem_cons.1 hq with rfl | hq
    · have hpmem : p ∈ s.freeBlocks := (List.takeWhile_sublist _).subset hp
      have hpa : p.address < q.address := by simpa using List.mem_takeWhile_imp hp
      by_contra hlt
      exact hs.free_alloc_disjoint hpmem hb q.address ⟨by omega, by omega⟩
        ⟨le_refl _, by omega⟩
    · exact le_of_lt (h3 p hp q hq)

theorem Inv.release {s : Heap} (hs : Inv s) (h : Int) : Inv (freeMemory s h).2 := by
  by_cases hh : h = 0
  · subst hh; rw [freeMemory_null]; exact hs
  rcases lookup_split s.allocatedBlocks h with habs | ⟨pre, b, post, hsplit, hpre, hb⟩
  · rw [freeMemory_absent s h hh habs]; exact hs
  have hbmem : b ∈ s.allocatedBlocks := by rw [hsplit]; simp
  rw [freeMemory_found s h pre b post hh hsplit hpre hb (hs.no_dup hbmem),
    hs.merge_insert_eq hbmem]
  have hipos : ∀ q ∈ insertByAddress b s.freeBlocks, 0 < q.size := by
    intro q hq
    rcases (insertByAddress_mem b s.freeBlocks q).1 hq with rfl | hq
    · exact hs.alloc_pos q hbmem
    · exact hs.free_pos q hq
  have hsub : ∀ x ∈ pre ++ post, x ∈ s.allocatedBlocks := by
    intro x hx
    rw [hsplit]
    rcases List.mem_append.1 hx with h1 | h1
    · exact List.mem_append_left _ h1
    · exact List.mem_append_right _ (List.mem_cons_of_mem _ h1)
  refine ⟨hs.heap_pos, ?_, ?_, ?_, ?_, ?_, ?_⟩
  · exact mergeFreeBlocksExact_size_pos _ hipos
  · exact mergeFreeBlocksExact_separated _ hipos (hs.insert_separated hbmem)
  · exact fun x hx => hs.alloc_pos x (hsub x hx)
  · exact fun x hx => hs.alloc_mem x (hsub x hx)
  · intro x
    have h1 := hs.cover x
    rw [hsplit] at h1
    simp only [coverCount_append, coverCount_cons] at h1
    show coverCount (mergeFreeBlocksExact _) x + coverCount (pre ++ post) x = _
    rw [mergeFreeBlocksExact_coverCount _ hipos, insertByAddress_coverCount, coverCount_append,
      coverCount_cons, coverCount_nil]
    omega
  · have h1 := hs.total
    rw [hsplit] at h1
    simp only [totalSize_append, totalSize_cons] at h1
    show totalSize (mergeFreeBlocksExact _) + totalSize (pre ++ post) = _
    rw [mergeFreeBlocksExact_totalSize, insertByAddress_totalSize, totalSize_append]
    omega

theorem Reachable.inv {s : Heap} (h : Reachable s) : Inv s := by
  induction h with
  | init heap blockOk s hheap hinit => exact Inv.of_initializeHeap heap blockOk s hheap hinit
  | call s c _ ih =>
    cases c with
    | allocate size mallocOk => exact ih.allocate size mallocOk
    | release memory => exact ih.release memory

/-- In a reachable state every block lies inside the arena: all the integers the
program handles are between 0 and 1024. -/
theorem Reachable.bounds {s : Heap} (h : Reachable s) :
    ∀ b ∈ s.freeBlocks ++ s.allocatedBlocks,
      0 ≤ b.address ∧ 0 < b.size ∧ b.address + b.size ≤ 1024 :=
  h.inv.blocks_in_arena

/-- The handle of a live block is not the null pointer. -/
theorem Inv.handle_ne_zero {s : Heap} (hs : Inv s) {b : MemoryBlock}
    (hb : b ∈ s.allocatedBlocks) : b.memory ≠ 0 := by
  have h1 := hs.blocks_in_arena b (List.mem_append_right _ hb)
  have h2 := hs.alloc_mem b hb
  have h3 := hs.heap_pos
  omega

/-- No other entry of the allocated list carries the handle of a live block. -/
theorem Inv.handle_unique {s : Heap} (hs : Inv s) {pre post : List MemoryBlock}
    {b : MemoryBlock} (hsplit : s.allocatedBlocks = pre ++ b :: post) :
    ∀ x ∈ pre ++ post, x.memory ≠ b.memory := by
  intro x hx hxb
  have hbmem : b ∈ s.allocatedBlocks := by rw [hsplit]; simp
  have hxmem : x ∈ s.allocatedBlocks := by
    rw [hsplit]
    rcases List.mem_append.1 hx with h1 | h1
    · exact List.mem_append_left _ h1
    · exact List.mem_append_right _ (List.mem_cons_of_mem _ h1)
  have haddr : x.address = b.address := by
    have h1 := hs.alloc_mem x hxmem
    have h2 := hs.alloc_mem b hbmem
    omega
  have hxpos := hs.alloc_pos x hxmem
  have hbpos := hs.alloc_pos b hbmem
  have hcx : covers x b.address := ⟨by omega, by omega⟩
  have hcb : covers b b.address := ⟨le_refl _, by omega⟩
  have h1 := coverCount_pos_of_mem hx hcx
  have h2 := hs.cover b.address
  rw [hsplit] at h2
  simp only [coverCount_append, coverCount_cons, if_pos hcb] at h2 h1
  split_ifs at h2 <;> omega

/-- Releasing the handle of a live block: the block leaves the allocated list, is put
back into the free list at its place by address, and the free list is coalesced. -/
theorem Inv.release_live {s : Heap} (hs : Inv s) {b : MemoryBlock}
    (hb : b ∈ s.allocatedBlocks) :
    ∃ pre post, s.allocatedBlocks = pre ++ b :: post ∧
      (∀ x ∈ pre ++ post, x.memory ≠ b.memory) ∧
      freeMemory s b.memory =
        (.released, { s with allocatedBlocks := pre ++ post,
                             freeBlocks := mergeFreeBlocks (insertByAddress b s.freeBlocks) }) := by
  obtain ⟨pre, post, hsplit⟩ := List.append_of_mem hb
  have huniq := hs.handle_unique hsplit
  refine ⟨pre, post, hsplit, huniq, ?_⟩
  exact freeMemory_found s b.memory pre b post (hs.handle_ne_zero hb) hsplit
    (fun x hx => huniq x (List.mem_append_left _ hx)) rfl (hs.no_dup hb)

/-- The coalescing pass walks unchanged over a leading part of the list in which no
block ends where its successor starts. -/
theorem mergeFromExact_append (pre : List MemoryBlock) :
    ∀ (p x : MemoryBlock) (rest : List MemoryBlock),
      List.Chain (fun a b => a.address + a.size ≠ b.address) p (pre ++ [x]) →
      mergeFromExact p (pre ++ x :: rest) = p :: pre ++ mergeFromExact x rest := by
  induction pre with
  | nil =>
    intro p x rest hc
    simp only [List.nil_append, List.chain_cons] at hc
    simp only [List.nil_append]
    rw [mergeFromExact, if_neg hc.1]
    rfl
  | cons q tl ih =>
    intro p x rest hc
    simp only [List.cons_append, List.chain_cons] at hc
    simp only [List.cons_append]
    rw [mergeFromExact, if_neg hc.1, ih q x rest hc.2]
    rfl

theorem mergeFreeBlocksExact_append (pre : List MemoryBlock) (x : MemoryBlock)
    (rest : List MemoryBlock)
    (hc : (pre ++ [x]).Chain' (fun a b => a.address + a.size ≠ b.address)) :
    mergeFreeBlocksExact (pre ++ x :: rest) = pre ++ mergeFromExact x rest := by
  cases pre with
  | nil => rfl
  | cons p tl => exact mergeFromExact_append tl p x rest hc

/-! ## Allocation followed by release -/

theorem insertByAddress_of_split (b : MemoryBlock) (pre rest : List MemoryBlock)
    (hpre : ∀ x ∈ pre, x.address < b.address)
    (hrest : ∀ c tl, rest = c :: tl → b.address ≤ c.address) :
    insertByAddress b (pre ++ rest) = pre ++ b :: rest := by
  have key : advance (fun c => decide (c.address < b.address)) (pre ++ rest) = (pre, rest) := by
    cases rest with
    | nil =>
      rw [List.append_nil]
      apply advance_all
      intro x hx; simpa using hpre x hx
    | cons c tl =>
      apply advance_of_split
      · intro x hx; simpa using hpre x hx
      · simpa using hrest c tl rfl
  rw [advance_eq] at key
  have k1 := congrArg Prod.fst key
  have k2 := congrArg Prod.snd key
  simp only at k1 k2
  unfold insertByAddress
  rw [k1, k2]

/-- Taking the first `n` bytes of the free block `b`, putting them back and coalescing
gives back the free list, address by address and size by size. -/
theorem segments_roundtrip (pre : List MemoryBlock) (b : MemoryBlock)
    (post : List MemoryBlock) (n m : Int) (hn : 0 < n)
    (hpos : ∀ x ∈ pre, 0 < x.size)
    (hsep : (pre ++ b :: post).Pairwise (fun a c => a.address + a.size < c.address)) :
    segments (mergeFreeBlocksExact (insertByAddress ⟨b.address, n, m⟩ (takeFrom pre b post n))) =
      segments (pre ++ b :: post) := by
  rw [List.pairwise_append, List.pairwise_cons] at hsep
  obtain ⟨h1, ⟨h2, h3⟩, h4⟩ := hsep
  have hpre : ∀ x ∈ pre, x.address < b.address := by
    intro x hx
    have := h4 x hx b (List.mem_cons_self _ _)
    have := hpos x hx
    omega
  have hchain : (pre ++ [(⟨b.address, n, m⟩ : MemoryBlock)]).Chain'
      (fun a c => a.address + a.size ≠ c.address) := by
    have hpw : (pre ++ [(⟨b.address, n, m⟩ : MemoryBlock)]).Pairwise
        (fun a c => a.address + a.size < c.address) := by
      rw [List.pairwise_append]
      refine ⟨h1, List.pairwise_singleton _ _, ?_⟩
      intro a ha c hc
      rw [List.mem_singleton] at hc
      subst hc
      exact h4 a ha b (List.mem_cons_self _ _)
    exact (List.Pairwise.chain' hpw).imp (fun _ _ h => ne_of_lt h)
  have hpost : ∀ (k : Int), List.Chain (fun a c => a.address + a.size ≠ c.address)
      (⟨b.address, b.size, k⟩ : MemoryBlock) post := by
    intro k
    apply List.Pairwise.chain
    rw [List.pairwise_cons]
    refine ⟨?_, h3.imp (fun h => ne_of_lt h)⟩
    intro c hc
    exact ne_of_lt (h2 c hc)
  unfold takeFrom
  split_ifs with h0
  · have hbn : b.size = n := by omega
    rw [insertByAddress_of_split ⟨b.address, n, m⟩ pre post (fun x hx => hpre x hx)
        (fun c tl hc => by
          have := h2 c (by rw [hc]; exact List.mem_cons_self _ _)
          show b.address ≤ c.address
          omega),
      mergeFreeBlocksExact_append pre _ post hchain]
    have := hpost m
    rw [hbn] at this
    rw [mergeFromExact_of_chain post _ this]
    simp [segments, hbn]
  · rw [insertByAddress_of_split ⟨b.address, n, m⟩ pre _ (fun x hx => hpre x hx)
        (fun c tl hc => by
          simp only [List.cons.injEq] at hc
          rw [← hc.1]
          show b.address ≤ b.address + n
          omega),
      mergeFreeBlocksExact_append pre _ _ hchain]
    rw [mergeFromExact, if_pos rfl]
    have := hpost m
    have hsz : n + (b.size - n) = b.size := by omega
    simp only [hsz]
    rw [mergeFromExact_of_chain post _ this]
    simp [segments]

/-- Releasing the handle of the last entry of the allocated list. -/
theorem Inv.release_last {s : Heap} (hs : Inv s) (l : List MemoryBlock) (b : MemoryBlock)
    (hsplit : s.allocatedBlocks = l ++ [b]) :
    freeMemory s b.memory =
      (.released, { s with allocatedBlocks := l,
                           freeBlocks := mergeFreeBlocks (insertByAddress b s.freeBlocks) }) := by
  have hmem : b ∈ s.allocatedBlocks := by rw [hsplit]; simp
  have huniq := hs.handle_unique hsplit
  have h := freeMemory_found s b.memory l b [] (hs.handle_ne_zero hmem) hsplit
    (fun x hx => huniq x (List.mem_append_left _ hx)) rfl (hs.no_dup hmem)
  rw [h, List.append_nil]

/-! ## Example states are reachable -/

theorem freshHeap_reachable : Reachable freshHeap :=
  Reachable.init 4096 true freshHeap (by decide) rfl

theorem scenarioA_reachable : Reachable scenarioA :=
  Reachable.call freshHeap (.allocate 100 true) freshHeap_reachable

theorem scenarioHole_reachable : Reachable scenarioHole :=
  Reachable.call _ (.release 4196)
    (Reachable.call _ (.allocate 30 true)
      (Reachable.call scenarioA (.allocate 50 true) scenarioA_reachable))

/-! ## The claims -/

/-- Claim C1 (free-list invariant): in every state reachable from `initializeHeap` by
calls of `allocateMemory` and `freeMemory` with arbitrary arguments, the addresses of the
free list are strictly increasing, every free block has a positive size, and every free
block ends at or before the start of its successor, and not exactly at it. -/
theorem free_list_invariant (s : Heap) (h : Reachable s) :
    s.freeBlocks.Pairwise (fun p q => p.address < q.address) ∧
    (∀ b ∈ s.freeBlocks, 0 < b.size) ∧
    s.freeBlocks.Chain' (fun p q =>
      p.address + p.size ≤ q.address ∧ p.address + p.size ≠ q.address) := by
  have hs := h.inv
  refine ⟨?_, hs.free_pos, ?_⟩
  · have h1 : s.freeBlocks.Pairwise (fun p q => 0 < p.size ∧ p.address + p.size < q.address) := by
      rw [List.pairwise_iff_forall_sublist]
      intro a b hab
      have hmem : a ∈ s.freeBlocks := hab.subset (List.mem_cons_self _ _)
      exact ⟨hs.free_pos a hmem, List.pairwise_iff_forall_sublist.1 hs.free_sep hab⟩
    exact h1.imp (fun h => by omega)
  · exact (List.Pairwise.chain' hs.free_sep).imp (fun _ _ h => ⟨le_of_lt h, ne_of_lt h⟩)

theorem free_list_invariant_witness :
    Reachable scenarioHole ∧
    scenarioHole.freeBlocks.Pairwise (fun p q => p.address < q.address) ∧
    (∀ b ∈ scenarioHole.freeBlocks, 0 < b.size) ∧
    scenarioHole.freeBlocks.Chain' (fun p q =>
      p.address + p.size ≤ q.address ∧ p.address + p.size ≠ q.address) :=
  ⟨scenarioHole_reachable, free_list_invariant scenarioHole scenarioHole_reachable⟩

/-- Claim C2 (partition invariant): in every reachable state the ranges
`[address, address + size)` of the free and the allocated blocks are non-empty and
pairwise disjoint, a byte belongs to one of them exactly when it lies in `[0, 1024)`,
and the sizes of all the blocks add up to 1024. -/
theorem partition_invariant (s : Heap) (h : Reachable s) :
    (∀ b ∈ s.freeBlocks ++ s.allocatedBlocks, 0 < b.size) ∧
    (s.freeBlocks ++ s.allocatedBlocks).Pairwise
      (fun b c => ∀ x, ¬ (covers b x ∧ covers c x)) ∧
    (∀ x, (0 ≤ x ∧ x < 1024) ↔ ∃ b ∈ s.freeBlocks ++ s.allocatedBlocks, covers b x) ∧
    totalSize s.freeBlocks + totalSize s.allocatedBlocks = 1024 := by
  have hs := h.inv
  have hcov : ∀ x, coverCount (s.freeBlocks ++ s.allocatedBlocks) x =
      if 0 ≤ x ∧ x < 1024 then 1 else 0 := by
    intro x; rw [coverCount_append]; exact hs.cover x
  refine ⟨fun b hb => (hs.blocks_in_arena b hb).2.1, ?_, ?_, hs.total⟩
  · apply pairwise_disjoint_of_coverCount_le_one
    intro x
    rw [hcov x]
    split_ifs <;> omega
  · intro x
    constructor
    · intro hx
      apply exists_of_coverCount_pos
      rw [hcov x, if_pos hx]
      exact Nat.one_pos
    · rintro ⟨b, hb, hbx⟩
      have h1 := coverCount_pos_of_mem hb hbx
      rw [hcov x] at h1
      by_contra hne
      rw [if_neg hne] at h1
      omega

theorem partition_invariant_witness :
    Reachable scenarioHole ∧
    ((∀ b ∈ scenarioHole.freeBlocks ++ scenarioHole.allocatedBlocks, 0 < b.size) ∧
    (scenarioHole.freeBlocks ++ scenarioHole.allocatedBlocks).Pairwise
      (fun b c => ∀ x, ¬ (covers b x ∧ covers c x)) ∧
    (∀ x, (0 ≤ x ∧ x < 1024) ↔
      ∃ b ∈ scenarioHole.freeBlocks ++ scenarioHole.allocatedBlocks, covers b x) ∧
    totalSize scenarioHole.freeBlocks + totalSize scenarioHole.allocatedBlocks = 1024) :=
  ⟨scenarioHole_reachable, partition_invariant scenarioHole scenarioHole_reachable⟩

/-- Claim C3 (first-fit selection): whenever `allocateMemory(n)` returns a non-null
pointer (which happens for sizes `n > 0` only), that pointer is the arena address of the first block of the free list
whose size is at least `n` (all blocks before it are smaller than `n`), and the block
recorded in the allocated list starts there; in a reachable state no free block of size
at least `n` has a lower address. -/
theorem first_fit_selection (s : Heap) (n : Int) (ok : Bool)
    (hsucc : (allocateMemory s n ok).1 ≠ 0) :
    0 < n ∧ ∃ pre b post, s.freeBlocks = pre ++ b :: post ∧ (∀ x ∈ pre, x.size < n) ∧ n ≤ b.size ∧
      (allocateMemory s n ok).1 = s.heapMemory + b.address ∧
      (allocateMemory s n ok).2.allocatedBlocks =
        s.allocatedBlocks ++ [⟨b.address, n, s.heapMemory + b.address⟩] ∧
      (Reachable s → ∀ c ∈ s.freeBlocks, n ≤ c.size → b.address ≤ c.address) := by
  rcases allocateMemory_cases s n ok with h | ⟨pre, b, post, hn, -, hsplit, hpre, hb, h⟩
  · rw [h] at hsucc; exact absurd rfl hsucc
  · refine ⟨hn, pre, b, post, hsplit, hpre, hb, by rw [h], by rw [h], ?_⟩
    intro hr c hc hcn
    have hsep := hr.inv.free_sep
    have hpos := hr.inv.free_pos b (by rw [hsplit]; simp)
    rw [hsplit, List.pairwise_append, List.pairwise_cons] at hsep
    rw [hsplit] at hc
    rcases List.mem_append.1 hc with h1 | h1
    · have := hpre c h1; omega
    · rcases List.mem_cons.1 h1 with h2 | h2
      · rw [h2]
      · have := hsep.2.1.1 c h2; omega

theorem first_fit_selection_witness :
    (0 : Int) < 60 ∧ ∃ pre b post, scenarioHole.freeBlocks = pre ++ b :: post ∧ (∀ x ∈ pre, x.size < 60) ∧
      60 ≤ b.size ∧
      (allocateMemory scenarioHole 60 true).1 = scenarioHole.heapMemory + b.address ∧
      (allocateMemory scenarioHole 60 true).2.allocatedBlocks =
        scenarioHole.allocatedBlocks ++ [⟨b.address, 60, scenarioHole.heapMemory + b.address⟩] ∧
      (Reachable scenarioHole →
        ∀ c ∈ scenarioHole.freeBlocks, 60 ≤ c.size → b.address ≤ c.address) :=
  first_fit_selection scenarioHole 60 true (by decide)

/-- Claim C4 as stated fails: carving 60 bytes out of the free block
`(2147483600, 100)` leaves the block `(-2147483636, 40)`, not `(2147483660, 40)`: the
new address overflows `int`. -/
theorem allocate_effect_overflow :
    overflowState.freeBlocks = [] ++ ⟨2147483600, 100, 0⟩ :: [] ∧ (60 : Int) < 100 ∧
    (allocateMemory overflowState 60 true).2.freeBlocks = [⟨-2147483636, 40, 0⟩] ∧
    (allocateMemory overflowState 60 true).2.freeBlocks ≠
      [] ++ ({ (⟨2147483600, 100, 0⟩ : MemoryBlock) with
                address := 2147483600 + 60, size := 100 - 60 }) :: [] := by
  decide

/-- Claim C4, amended (effect of a successful allocation): if `n > 0`, the first block
of the free list of size at least `n` is `b` (between `pre`, whose blocks are all
smaller than `n`, and `post`) and the record for the new block is obtained, then
`allocateMemory(n)` returns the arena address of `b` and appends the block
`(b.address, n)` to the allocated list, whose other entries keep their places; in the
free list it removes `b` when `b.size = n`, and when `b.size > n`, the fields of `b`
being values of `int` and `b.address + n` not exceeding the largest `int`, it replaces
`b` in place by `(b.address + n, b.size - n)`; all other free blocks stay as they
were. -/
theorem allocate_effect (s : Heap) (n : Int) (pre : List MemoryBlock) (b : MemoryBlock)
    (post : List MemoryBlock) (hn : 0 < n) (hsplit : s.freeBlocks = pre ++ b :: post)
    (hpre : ∀ x ∈ pre, x.size < n) (hb : n ≤ b.size) :
    (allocateMemory s n true).1 = s.heapMemory + b.address ∧
    (allocateMemory s n true).2.heapMemory = s.heapMemory ∧
    (allocateMemory s n true).2.allocatedBlocks =
      s.allocatedBlocks ++ [⟨b.address, n, s.heapMemory + b.address⟩] ∧
    (b.size = n → (allocateMemory s n true).2.freeBlocks = pre ++ post) ∧
    (n < b.size → inInt b.address → inInt b.size → b.address + n ≤ 2147483647 →
      (allocateMemory s n true).2.freeBlocks =
        pre ++ { b with address := b.address + n, size := b.size - n } :: post) := by
  rw [allocateMemory_fit s n pre b post hn hsplit hpre hb]
  refine ⟨rfl, rfl, rfl, ?_, ?_⟩
  · intro h
    show carve pre b post n = _
    have h0 : wrap32 (b.size - n) = 0 := by
      rw [h, sub_self]; rfl
    rw [carve, if_pos h0]
  · intro h haddr hsize hsum
    show carve pre b post n = _
    unfold inInt at haddr hsize
    rw [carve_eq_takeFrom pre b post n ⟨by omega, by omega⟩ ⟨by omega, by omega⟩,
      takeFrom, if_neg (by omega)]

theorem allocate_effect_witness :
    (allocateMemory scenarioHole 60 true).1 = 4096 + 180 ∧
    (allocateMemory scenarioHole 60 true).2.heapMemory = 4096 ∧
    (allocateMemory scenarioHole 60 true).2.allocatedBlocks =
      [⟨0, 100, 4096⟩, ⟨150, 30, 4246⟩] ++ [⟨180, 60, 4096 + 180⟩] ∧
    (allocateMemory scenarioHole 60 true).2.freeBlocks =
      [⟨100, 50, 4196⟩] ++ [⟨180 + 60, 844 - 60, 0⟩] :=
  have h := allocate_effect scenarioHole 60 [⟨100, 50, 4196⟩] ⟨180, 844, 0⟩ [] (by decide) rfl
    (by decide) (by decide)
  ⟨h.1, h.2.1, h.2.2.1, h.2.2.2.2 (by decide) (by decide) (by decide) (by decide)⟩

/-- Claim C6 (invalid size): for every state and every `n ≤ 0`, `allocateMemory(n)`
returns `NULL` and leaves the free list and the allocated list unchanged, whatever the
outcome of `malloc` would have been. -/
theorem invalid_size_rejected (s : Heap) (n : Int) (ok : Bool) (hn : n ≤ 0) :
    (allocateMemory s n ok).1 = 0 ∧ (allocateMemory s n ok).2 = s := by
  rw [allocateMemory_invalid s n ok hn]
  exact ⟨rfl, rfl⟩

/-- Scenario F: `allocateMemory(0)` and `allocateMemory(-5)` after scenario A. -/
theorem invalid_size_rejected_witness :
    ((allocateMemory scenarioA 0 true).1 = 0 ∧ (allocateMemory scenarioA 0 true).2 = scenarioA) ∧
    ((allocateMemory scenarioA (-5) true).1 = 0 ∧
      (allocateMemory scenarioA (-5) true).2 = scenarioA) :=
  ⟨invalid_size_rejected scenarioA 0 true (by decide),
    invalid_size_rejected scenarioA (-5) true (by decide)⟩

/-- Claim C7 (effect of a successful release): in every reachable state, for every
handle `h` carried by an entry `b` of the allocated list, `freeMemory(h)` takes the
releasing path, the allocated list loses exactly the entry `b` (it was
`pre ++ b :: post`, no other entry carried `h`, and it becomes `pre ++ post`), and the
free list becomes the result of the coalescing pass on the old free list with `b`
inserted immediately before the first block whose address is at least that of `b` (at
the end if there is none). -/
theorem release_effect (s : Heap) (h : Int) (b : MemoryBlock) (hr : Reachable s)
    (hb : b ∈ s.allocatedBlocks) (hh : b.memory = h) :
    ∃ pre post, s.allocatedBlocks = pre ++ b :: post ∧
      (∀ x ∈ pre ++ post, x.memory ≠ h) ∧
      freeMemory s h =
        (.released, { s with allocatedBlocks := pre ++ post,
                             freeBlocks := mergeFreeBlocks (insertByAddress b s.freeBlocks) }) := by
  subst hh
  exact hr.inv.release_live hb

theorem release_effect_witness :
    ∃ pre post, scenarioHole.allocatedBlocks = pre ++ ⟨150, 30, 4246⟩ :: post ∧
      (∀ x ∈ pre ++ post, x.memory ≠ 4246) ∧
      freeMemory scenarioHole 4246 =
        (.released, { scenarioHole with
          allocatedBlocks := pre ++ post,
          freeBlocks := mergeFreeBlocks (insertByAddress ⟨150, 30, 4246⟩ scenarioHole.freeBlocks) }) :=
  release_effect scenarioHole 4246 ⟨150, 30, 4246⟩ scenarioHole_reachable (by decide) rfl

/-- Claim C8 (failed releases are atomic): in every state, `freeMemory` called with
the null pointer takes the null-pointer path, `freeMemory` called with a non-null
pointer that is the handle of no entry of the allocated list takes the not-allocated
path, and both leave the free list and the allocated list exactly as they were. -/
theorem failed_release_atomic (s : Heap) (h : Int)
    (hbad : h = 0 ∨ ∀ b ∈ s.allocatedBlocks, b.memory ≠ h) :
    (freeMemory s h).2 = s ∧
    (h = 0 → (freeMemory s h).1 = .nullPointer) ∧
    (h ≠ 0 → (freeMemory s h).1 = .notAllocated) := by
  by_cases hh : h = 0
  · subst hh
    rw [freeMemory_null]
    exact ⟨rfl, fun _ => rfl, fun h => absurd rfl h⟩
  · rcases hbad with h0 | habs
    · exact absurd h0 hh
    · rw [freeMemory_absent s h hh habs]
      exact ⟨rfl, fun h => absurd h hh, fun _ => rfl⟩

theorem failed_release_atomic_witness :
    ((freeMemory scenarioHole 0).2 = scenarioHole ∧
      ((0 : Int) = 0 → (freeMemory scenarioHole 0).1 = .nullPointer) ∧
      ((0 : Int) ≠ 0 → (freeMemory scenarioHole 0).1 = .notAllocated)) ∧
    ((freeMemory scenarioHole 4196).2 = scenarioHole ∧
      ((4196 : Int) = 0 → (freeMemory scenarioHole 4196).1 = .nullPointer) ∧
      ((4196 : Int) ≠ 0 → (freeMemory scenarioHole 4196).1 = .notAllocated)) :=
  ⟨failed_release_atomic scenarioHole 0 (Or.inl rfl),
    failed_release_atomic scenarioHole 4196 (Or.inr (by decide))⟩

/-- Claim C9 (allocate/release round trip): in every reachable state, whenever
`allocateMemory(n)` returns a non-null handle (which happens for `n > 0` only), calling
`freeMemory` on that handle right away takes the releasing path, gives back a free list
with the same addresses and sizes in the same order as before the allocation, and
gives back the allocated list and the arena pointer of before the allocation. -/
theorem allocate_release_roundtrip (s : Heap) (n : Int) (ok : Bool) (hr : Reachable s)
    (hsucc : (allocateMemory s n ok).1 ≠ 0) :
    (freeMemory (allocateMemory s n ok).2 (allocateMemory s n ok).1).1 = .released ∧
    segments (freeMemory (allocateMemory s n ok).2 (allocateMemory s n ok).1).2.freeBlocks =
      segments s.freeBlocks ∧
    (freeMemory (allocateMemory s n ok).2 (allocateMemory s n ok).1).2.allocatedBlocks =
      s.allocatedBlocks ∧
    (freeMemory (allocateMemory s n ok).2 (allocateMemory s n ok).1).2.heapMemory =
      s.heapMemory := by
  have hs1 := hr.inv.allocate n ok
  rcases allocateMemory_cases s n ok with h | ⟨pre, b, post, hn, -, hsplit, -, hb, h⟩
  · rw [h] at hsucc; exact absurd rfl hsucc
  · have hs := hr.inv
    rw [hs.carve_eq pre b post n (by rw [hsplit]; simp) hn hb] at h
    rw [h] at hs1 ⊢
    have hfree := hs1.release_last s.allocatedBlocks
      ⟨b.address, n, s.heapMemory + b.address⟩ rfl
    have hm : mergeFreeBlocks
        (insertByAddress ⟨b.address, n, s.heapMemory + b.address⟩ (takeFrom pre b post n)) =
        mergeFreeBlocksExact
          (insertByAddress ⟨b.address, n, s.heapMemory + b.address⟩ (takeFrom pre b post n)) :=
      hs1.merge_insert_eq (b := ⟨b.address, n, s.heapMemory + b.address⟩)
        (List.mem_append_right _ (List.mem_singleton_self _))
    simp only at hfree ⊢
    rw [hfree]
    refine ⟨rfl, ?_, rfl, rfl⟩
    show segments (mergeFreeBlocks (insertByAddress _ (takeFrom pre b post n))) = _
    rw [hm, hsplit]
    apply segments_roundtrip pre b post n _ hn
    · intro x hx
      exact hs.free_pos x (by rw [hsplit]; exact List.mem_append_left _ hx)
    · exact hsplit ▸ hs.free_sep

/-- Scenario C, and the same with a hole in the free list: the first fit for 50 bytes
is the hole `(100, 50)`, which is used up and then restored. -/
theorem allocate_release_roundtrip_witness :
    ((freeMemory (allocateMemory scenarioHole 50 true).2
        (allocateMemory scenarioHole 50 true).1).1 = .released ∧
      segments (freeMemory (allocateMemory scenarioHole 50 true).2
        (allocateMemory scenarioHole 50 true).1).2.freeBlocks = [(100, 50), (180, 844)] ∧
      (freeMemory (allocateMemory scenarioHole 50 true).2
        (allocateMemory scenarioHole 50 true).1).2.allocatedBlocks =
        scenarioHole.allocatedBlocks ∧
      (freeMemory (allocateMemory scenarioHole 50 true).2
        (allocateMemory scenarioHole 50 true).1).2.heapMemory = 4096) ∧
    segments (freeMemory scenarioA 4096).2.freeBlocks = [(0, 1024)] :=
  ⟨allocate_release_roundtrip scenarioHole 50 true scenarioHole_reachable (by decide),
    (allocate_release_roundtrip freshHeap 100 true freshHeap_reachable (by decide)).2.1⟩

/-- Claim C10 (releasing the same handle twice): in every reachable state, for every
handle `h` carried by an entry `b` of the allocated list, the first `freeMemory(h)`
takes the releasing path, after it no entry of the allocated list carries `h` and every
byte of `b` lies in a free block, and a second `freeMemory(h)` right after it takes the
not-allocated path and leaves the free list and the allocated list unchanged. -/
theorem double_release (s : Heap) (h : Int) (b : MemoryBlock) (hr : Reachable s)
    (hb : b ∈ s.allocatedBlocks) (hh : b.memory = h) :
    (freeMemory s h).1 = .released ∧
    (∀ x ∈ (freeMemory s h).2.allocatedBlocks, x.memory ≠ h) ∧
    (∀ x, covers b x → ∃ c ∈ (freeMemory s h).2.freeBlocks, covers c x) ∧
    freeMemory (freeMemory s h).2 h = (.notAllocated, (freeMemory s h).2) := by
  subst hh
  have hs := hr.inv
  obtain ⟨pre, post, hsplit, huniq, hfree⟩ := hs.release_live hb
  rw [hfree]
  refine ⟨rfl, huniq, ?_, freeMemory_absent _ _ (hs.handle_ne_zero hb) huniq⟩
  intro x hx
  apply exists_of_coverCount_pos
  show 0 < coverCount (mergeFreeBlocks (insertByAddress b s.freeBlocks)) x
  have hipos : ∀ q ∈ insertByAddress b s.freeBlocks, 0 < q.size := by
    intro q hq
    rcases (insertByAddress_mem b s.freeBlocks q).1 hq with rfl | hq
    · exact hs.alloc_pos q hb
    · exact hs.free_pos q hq
  rw [hs.merge_insert_eq hb, mergeFreeBlocksExact_coverCount _ hipos, insertByAddress_coverCount, coverCount_cons,
    if_pos hx]
  omega

theorem double_release_witness :
    (freeMemory scenarioHole 4246).1 = .released ∧
    (∀ x ∈ (freeMemory scenarioHole 4246).2.allocatedBlocks, x.memory ≠ 4246) ∧
    (∀ x, covers ⟨150, 30, 4246⟩ x →
      ∃ c ∈ (freeMemory scenarioHole 4246).2.freeBlocks, covers c x) ∧
    freeMemory (freeMemory scenarioHole 4246).2 4246 =
      (.notAllocated, (freeMemory scenarioHole 4246).2) :=
  double_release scenarioHole 4246 ⟨150, 30, 4246⟩ scenarioHole_reachable (by decide) rfl

/-! ## More on the coalescing pass -/

theorem mergeFromExact_cons_eq (p q : MemoryBlock) (rest : List MemoryBlock)
    (h : p.address + p.size = q.address) :
    mergeFromExact p (q :: rest) = mergeFromExact { p with size := p.size + q.size } rest := by
  rw [mergeFromExact, if_pos h]

theorem mergeFromExact_cons_ne (p q : MemoryBlock) (rest : List MemoryBlock)
    (h : p.address + p.size ≠ q.address) :
    mergeFromExact p (q :: rest) = p :: mergeFromExact q rest := by
  rw [mergeFromExact, if_neg h]

theorem mergeFrom_cons_eq (p q : MemoryBlock) (rest : List MemoryBlock)
    (h : wrap32 (p.address + p.size) = q.address) :
    mergeFrom p (q :: rest) = mergeFrom { p with size := wrap32 (p.size + q.size) } rest := by
  rw [mergeFrom, if_pos h]

theorem mergeFrom_cons_ne (p q : MemoryBlock) (rest : List MemoryBlock)
    (h : wrap32 (p.address + p.size) ≠ q.address) :
    mergeFrom p (q :: rest) = p :: mergeFrom q rest := by
  rw [mergeFrom, if_neg h]

/-- The pass started at `p` leaves a first block with the address of `p`, and no block
of its result passes the adjacency test of the source with its successor. -/
theorem mergeFrom_head_chain (rest : List MemoryBlock) :
    ∀ (p : MemoryBlock), ∃ p' tl, mergeFrom p rest = p' :: tl ∧ p'.address = p.address ∧
      List.Chain (fun a b => wrap32 (a.address + a.size) ≠ b.address) p' tl := by
  induction rest with
  | nil => intro p; exact ⟨p, [], rfl, rfl, List.Chain.nil⟩
  | cons q tl ih =>
    intro p
    by_cases h : wrap32 (p.address + p.size) = q.address
    · obtain ⟨p', tl', h1, h2, h3⟩ := ih { p with size := wrap32 (p.size + q.size) }
      refine ⟨p', tl', ?_, h2, h3⟩
      rw [mergeFrom_cons_eq p q tl h, h1]
    · obtain ⟨q', tl', h1, h2, h3⟩ := ih q
      refine ⟨p, q' :: tl', ?_, rfl, ?_⟩
      · rw [mergeFrom_cons_ne p q tl h, h1]
      · rw [List.chain_cons]
        exact ⟨by rw [h2]; exact h, h3⟩

theorem mergeFreeBlocks_no_adjacent (l : List MemoryBlock) :
    (mergeFreeBlocks l).Chain' (fun a b => wrap32 (a.address + a.size) ≠ b.address) := by
  cases l with
  | nil => exact List.chain'_nil
  | cons p rest =>
    obtain ⟨p', tl, h1, -, h3⟩ := mergeFrom_head_chain rest p
    show (mergeFrom p rest).Chain' _
    rw [h1]
    exact h3

/-- When the addresses are values of `int`, no block of the result of the pass ends
where its successor starts. -/
theorem mergeFrom_head_chain_int (rest : List MemoryBlock) :
    ∀ (p : MemoryBlock), (∀ q ∈ rest, inInt q.address) →
      ∃ p' tl, mergeFrom p rest = p' :: tl ∧ p'.address = p.address ∧
        List.Chain (fun a b => a.address + a.size ≠ b.address) p' tl := by
  induction rest with
  | nil => intro p _; exact ⟨p, [], rfl, rfl, List.Chain.nil⟩
  | cons q tl ih =>
    intro p hint
    have htl : ∀ r ∈ tl, inInt r.address := fun r hr => hint r (List.mem_cons_of_mem _ hr)
    by_cases h : wrap32 (p.address + p.size) = q.address
    · obtain ⟨p', tl', h1, h2, h3⟩ := ih { p with size := wrap32 (p.size + q.size) } htl
      refine ⟨p', tl', ?_, h2, h3⟩
      rw [mergeFrom_cons_eq p q tl h, h1]
    · obtain ⟨q', tl', h1, h2, h3⟩ := ih q htl
      refine ⟨p, q' :: tl', ?_, rfl, ?_⟩
      · rw [mergeFrom_cons_ne p q tl h, h1]
      · rw [List.chain_cons]
        refine ⟨?_, h3⟩
        intro heq
        apply h
        rw [heq, h2]
        exact wrap32_of_inInt _ (hint q (List.mem_cons_self _ _))

theorem mergeFreeBlocks_no_adjacent_int (l : List MemoryBlock)
    (hint : ∀ q ∈ l, inInt q.address) :
    (mergeFreeBlocks l).Chain' (fun a b => a.address + a.size ≠ b.address) := by
  cases l with
  | nil => exact List.chain'_nil
  | cons p rest =>
    obtain ⟨p', tl, h1, -, h3⟩ :=
      mergeFrom_head_chain_int rest p (fun q hq => hint q (List.mem_cons_of_mem _ hq))
    show (mergeFrom p rest).Chain' _
    rw [h1]
    exact h3

/-- The pass changes nothing on a list in which no block passes the adjacency test of
the source with its successor. -/
theorem mergeFrom_of_chain (rest : List MemoryBlock) :
    ∀ (p : MemoryBlock),
      List.Chain (fun a b => wrap32 (a.address + a.size) ≠ b.address) p rest →
      mergeFrom p rest = p :: rest := by
  induction rest with
  | nil => intro p _; rfl
  | cons q tl ih =>
    intro p hc
    rw [List.chain_cons] at hc
    rw [mergeFrom_cons_ne p q tl hc.1, ih q hc.2]

theorem mergeFreeBlocks_of_chain (l : List MemoryBlock)
    (h : l.Chain' (fun a b => wrap32 (a.address + a.size) ≠ b.address)) :
    mergeFreeBlocks l = l := by
  cases l with
  | nil => rfl
  | cons p rest => exact mergeFrom_of_chain rest p h

/-- A run of blocks, each passing the adjacency test with the next, is absorbed into its
first block, whose size becomes the sum of the sizes of the run as an `int`. -/
theorem mergeFrom_run (rest : List MemoryBlock) :
    ∀ (p : MemoryBlock) (post : List MemoryBlock), wrap32 p.size = p.size →
      List.Chain (fun a b => wrap32 (a.address + a.size) = b.address) p rest →
      mergeFrom p (rest ++ post) =
        mergeFrom { p with size := wrap32 (totalSize (p :: rest)) } post := by
  induction rest with
  | nil =>
    intro p post hp _
    have : ({ p with size := wrap32 (totalSize [p]) } : MemoryBlock) = p := by
      cases p
      simp only [totalSize_cons, totalSize_nil, add_zero] at hp ⊢
      simp only [hp]
    rw [this, List.nil_append]
  | cons q tl ih =>
    intro p post _ hc
    rw [List.chain_cons] at hc
    have hc' : List.Chain (fun a b => wrap32 (a.address + a.size) = b.address)
        { p with size := wrap32 (p.size + q.size) } tl := by
      cases tl with
      | nil => exact List.Chain.nil
      | cons c tl' =>
        rw [List.chain_cons] at hc ⊢
        refine ⟨?_, hc.2.2⟩
        have h1 := hc.1
        have h2 := hc.2.1
        show wrap32 (p.address + wrap32 (p.size + q.size)) = c.address
        unfold wrap32 at h1 h2 ⊢
        omega
    have hp' : wrap32 (wrap32 (p.size + q.size)) = wrap32 (p.size + q.size) :=
      wrap32_of_inInt _ (wrap32_inInt _)
    rw [List.cons_append, mergeFrom_cons_eq p q _ hc.1, ih _ post hp' hc']
    have hsz : wrap32 (totalSize ({ p with size := wrap32 (p.size + q.size) } :: tl)) =
        wrap32 (totalSize (p :: q :: tl)) := by
      simp only [totalSize_cons]
      unfold wrap32
      omega
    simp only [hsz]

/-- The pass leaves `m` behind when the next block does not pass the adjacency test. -/
theorem mergeFrom_stop (m : MemoryBlock) (post : List MemoryBlock)
    (h : ∀ c ∈ post.head?, wrap32 (m.address + m.size) ≠ c.address) :
    mergeFrom m post = m :: mergeFreeBlocks post := by
  cases post with
  | nil => rfl
  | cons c tl =>
    rw [mergeFrom_cons_ne m c tl (h c (by simp))]
    rfl

/-- The pass works on a leading part of the list on its own when the last block it
leaves there does not pass the adjacency test with the next block. -/
theorem mergeFrom_split (pre : List MemoryBlock) :
    ∀ (p x : MemoryBlock) (rest : List MemoryBlock),
      (∀ l ∈ (mergeFrom p pre).getLast?, wrap32 (l.address + l.size) ≠ x.address) →
      mergeFrom p (pre ++ x :: rest) = mergeFrom p pre ++ mergeFrom x rest := by
  induction pre with
  | nil =>
    intro p x rest h
    have hp : wrap32 (p.address + p.size) ≠ x.address := h p (by simp [mergeFrom])
    rw [List.nil_append, mergeFrom_cons_ne p x rest hp]
    rfl
  | cons q tl ih =>
    intro p x rest h
    by_cases hq : wrap32 (p.address + p.size) = q.address
    · rw [mergeFrom_cons_eq p q tl hq] at h ⊢
      rw [List.cons_append, mergeFrom_cons_eq p q _ hq, ih _ x rest h]
    · obtain ⟨q', tl', h1, -, -⟩ := mergeFrom_head_chain tl q
      rw [mergeFrom_cons_ne p q tl hq] at h ⊢
      rw [h1, List.getLast?_cons_cons, ← h1] at h
      rw [List.cons_append, mergeFrom_cons_ne p q _ hq, ih q x rest h]
      rfl

theorem mergeFreeBlocks_split (pre : List MemoryBlock) (x : MemoryBlock)
    (rest : List MemoryBlock)
    (h : ∀ l ∈ (mergeFreeBlocks pre).getLast?, wrap32 (l.address + l.size) ≠ x.address) :
    mergeFreeBlocks (pre ++ x :: rest) = mergeFreeBlocks pre ++ mergeFrom x rest := by
  cases pre with
  | nil => rfl
  | cons p tl => exact mergeFrom_split tl p x rest h

theorem pairwise_address_lt (l : List MemoryBlock) (hpos : ∀ b ∈ l, 0 < b.size)
    (hsep : l.Pairwise (fun a b => a.address + a.size ≤ b.address)) :
    l.Pairwise (fun a b => a.address < b.address) := by
  have h1 : l.Pairwise (fun p q => 0 < p.size ∧ p.address + p.size ≤ q.address) := by
    rw [List.pairwise_iff_forall_sublist]
    intro a b hab
    have hmem : a ∈ l := hab.subset (List.mem_cons_self _ _)
    exact ⟨hpos a hmem, List.pairwise_iff_forall_sublist.1 hsep hab⟩
  exact h1.imp (fun h => by omega)

/-! ## The claims on the coalescing pass -/

/-- Claim C11 (coalescing is idempotent): for every list of blocks whatsoever, running
`mergeFreeBlocks` on the result of `mergeFreeBlocks` changes nothing. -/
theorem coalescing_idempotent (L : List MemoryBlock) :
    mergeFreeBlocks (mergeFreeBlocks L) = mergeFreeBlocks L :=
  mergeFreeBlocks_of_chain _ (mergeFreeBlocks_no_adjacent L)

/-- Claim C12 as stated fails: the blocks of `overflowRun` have `int` fields and each
ends where the next starts, but the single block they are merged into has the size
`-2147483648`, not the sum `2147483648` of their sizes, which no `int` holds. -/
theorem coalescing_run_overflow :
    (∀ b ∈ overflowRun, inInt b.address ∧ inInt b.size) ∧
    overflowRun.Chain' (fun a b => a.address + a.size = b.address) ∧
    totalSize overflowRun = 2147483648 ∧
    mergeFreeBlocks overflowRun = [⟨0, -2147483648, 0⟩] := by
  refine ⟨by decide, by simp [overflowRun], by decide, by decide⟩

/-- Claim C12, amended (coalescing is complete and transitive in one pass):
`mergeFreeBlocks` is a total function; for every list, no block of its result passes
the adjacency test of the source with its successor, and when the addresses are values
of `int` no block of its result ends where its successor starts; and a run `p :: rest`
of `int` records each ending where the next starts, standing between `pre` and `post`,
becomes the single block at the address of `p` whose size is the sum of the sizes of
the run, provided that sum is a value of `int`, the run is not itself absorbed from the
left (the block the pass leaves last in `pre` fails the adjacency test with `p`) and
does not go on to the right (the merged block fails the test with the first block of
`post`).  The list `(0,10),(10,20),(30,5)` becomes `(0,35)`. -/
theorem coalescing_complete :
    (∀ L : List MemoryBlock,
      (mergeFreeBlocks L).Chain' (fun a b => wrap32 (a.address + a.size) ≠ b.address)) ∧
    (∀ L : List MemoryBlock, (∀ b ∈ L, inInt b.address) →
      (mergeFreeBlocks L).Chain' (fun a b => a.address + a.size ≠ b.address)) ∧
    (∀ (pre : List MemoryBlock) (p : MemoryBlock) (rest post : List MemoryBlock),
      (∀ b ∈ p :: rest, inInt b.address ∧ inInt b.size) →
      List.Chain (fun a b => a.address + a.size = b.address) p rest →
      inInt (totalSize (p :: rest)) →
      (∀ l ∈ (mergeFreeBlocks pre).getLast?, wrap32 (l.address + l.size) ≠ p.address) →
      (∀ c ∈ post.head?, wrap32 (p.address + totalSize (p :: rest)) ≠ c.address) →
      mergeFreeBlocks (pre ++ p :: (rest ++ post)) =
        mergeFreeBlocks pre ++ { p with size := totalSize (p :: rest) } :: mergeFreeBlocks post) ∧
    segments (mergeFreeBlocks [⟨0, 10, 0⟩, ⟨10, 20, 0⟩, ⟨30, 5, 0⟩]) = [(0, 35)] := by
  refine ⟨mergeFreeBlocks_no_adjacent, mergeFreeBlocks_no_adjacent_int, ?_, by decide⟩
  intro pre p rest post hint hrun hsum hpre hpost
  have hrun' : List.Chain (fun a b => wrap32 (a.address + a.size) = b.address) p rest := by
    have hmem : ∀ q ∈ rest, inInt q.address :=
      fun q hq => (hint q (List.mem_cons_of_mem _ hq)).1
    clear hint hsum hpre hpost
    induction rest generalizing p with
    | nil => exact List.Chain.nil
    | cons q tl ih =>
      rw [List.chain_cons] at hrun ⊢
      refine ⟨?_, ih q hrun.2 (fun r hr => hmem r (List.mem_cons_of_mem _ hr))⟩
      rw [hrun.1]
      exact wrap32_of_inInt _ (hmem q (List.mem_cons_self _ _))
  have hp : wrap32 p.size = p.size :=
    wrap32_of_inInt _ (hint p (List.mem_cons_self _ _)).2
  rw [mergeFreeBlocks_split pre p _ hpre, mergeFrom_run rest p post hp hrun',
    wrap32_of_inInt _ hsum, mergeFrom_stop _ post hpost]

/-- A run of three blocks between a block that stays apart and a block that stays
apart. -/
theorem coalescing_complete_witness :
    mergeFreeBlocks ([⟨0, 5, 0⟩] ++ ⟨10, 10, 0⟩ :: ([⟨20, 10, 0⟩, ⟨30, 5, 0⟩] ++ [⟨40, 8, 0⟩])) =
      mergeFreeBlocks [⟨0, 5, 0⟩] ++
        { (⟨10, 10, 0⟩ : MemoryBlock) with
          size := totalSize [⟨10, 10, 0⟩, ⟨20, 10, 0⟩, ⟨30, 5, 0⟩] } ::
        mergeFreeBlocks [⟨40, 8, 0⟩] ∧
    segments (mergeFreeBlocks [⟨0, 5, 0⟩, ⟨10, 10, 0⟩, ⟨20, 10, 0⟩, ⟨30, 5, 0⟩, ⟨40, 8, 0⟩]) =
      [(0, 5), (10, 25), (40, 8)] ∧
    (mergeFreeBlocks [⟨0, 5, 0⟩, ⟨10, 10, 0⟩, ⟨20, 10, 0⟩, ⟨30, 5, 0⟩, ⟨40, 8, 0⟩]).Chain'
      (fun a b => a.address + a.size ≠ b.address) :=
  ⟨coalescing_complete.2.2.1 [⟨0, 5, 0⟩] ⟨10, 10, 0⟩ [⟨20, 10, 0⟩, ⟨30, 5, 0⟩] [⟨40, 8, 0⟩]
      (by decide) (by simp) (by decide) (by decide) (by decide),
    by decide,
    coalescing_complete.2.1 _ (by decide)⟩

/-- In a list of separated blocks of positive size, a covered byte is not below the
start of the first block. -/
theorem covers_ge_head (a : MemoryBlock) (t : List MemoryBlock)
    (hpos : ∀ b ∈ a :: t, 0 < b.size)
    (hsep : (a :: t).Pairwise (fun p q => p.address + p.size < q.address))
    (c : MemoryBlock) (hc : c ∈ a :: t) (x : Int) (hx : covers c x) : a.address ≤ x := by
  rcases List.mem_cons.1 hc with rfl | hc
  · exact hx.1
  · have h1 := (List.pairwise_cons.1 hsep).1 c hc
    have h2 := hpos a (List.mem_cons_self _ _)
    have h3 := hx.1
    omega

/-- In a list of separated blocks, a byte covered by a block after the first lies
beyond the end of the first. -/
theorem covers_tail_gt (a : MemoryBlock) (t : List MemoryBlock)
    (hsep : (a :: t).Pairwise (fun p q => p.address + p.size < q.address))
    (c : MemoryBlock) (hc : c ∈ t) (x : Int) (hx : covers c x) : a.address + a.size < x := by
  have h1 := (List.pairwise_cons.1 hsep).1 c hc
  have h3 := hx.1
  omega

theorem head_address_le (a b : MemoryBlock) (t₁ t₂ : List MemoryBlock)
    (hpos₁ : ∀ c ∈ a :: t₁, 0 < c.size)
    (hpos₂ : ∀ c ∈ b :: t₂, 0 < c.size)
    (hsep₂ : (b :: t₂).Pairwise (fun p q => p.address + p.size < q.address))
    (hcov : ∀ x, (∃ c ∈ a :: t₁, covers c x) → ∃ c ∈ b :: t₂, covers c x) :
    b.address ≤ a.address := by
  have ha := hpos₁ a (List.mem_cons_self _ _)
  obtain ⟨c, hc, hx⟩ := hcov a.address ⟨a, List.mem_cons_self _ _, le_refl _, by omega⟩
  exact covers_ge_head b t₂ hpos₂ hsep₂ c hc _ hx

theorem head_end_le (a b : MemoryBlock) (t₁ t₂ : List MemoryBlock)
    (hpos₁ : ∀ c ∈ a :: t₁, 0 < c.size) (hb : 0 < b.size)
    (hsep₂ : (b :: t₂).Pairwise (fun p q => p.address + p.size < q.address))
    (haddr : a.address = b.address)
    (hcov : ∀ x, (∃ c ∈ a :: t₁, covers c x) → ∃ c ∈ b :: t₂, covers c x) :
    a.address + a.size ≤ b.address + b.size := by
  by_contra hlt
  have ha := hpos₁ a (List.mem_cons_self _ _)
  obtain ⟨c, hc, hx⟩ := hcov (b.address + b.size)
    ⟨a, List.mem_cons_self _ _, by omega, by omega⟩
  rcases List.mem_cons.1 hc with rfl | hc
  · have := hx.2; omega
  · have := covers_tail_gt b t₂ hsep₂ c hc _ hx
    omega

theorem tail_covers_of_covers (a b : MemoryBlock) (t₁ t₂ : List MemoryBlock)
    (hsep₁ : (a :: t₁).Pairwise (fun p q => p.address + p.size < q.address))
    (hend : a.address + a.size = b.address + b.size)
    (hcov : ∀ x, (∃ c ∈ a :: t₁, covers c x) → ∃ c ∈ b :: t₂, covers c x) :
    ∀ x, (∃ c ∈ t₁, covers c x) → ∃ c ∈ t₂, covers c x := by
  rintro x ⟨c, hc, hx⟩
  have hgt := covers_tail_gt a t₁ hsep₁ c hc x hx
  obtain ⟨d, hd, hdx⟩ := hcov x ⟨c, List.mem_cons_of_mem _ hc, hx⟩
  rcases List.mem_cons.1 hd with rfl | hd
  · have := hdx.2; omega
  · exact ⟨d, hd, hdx⟩

/-- Two lists of separated blocks of positive size that cover the same bytes have the
same addresses and sizes, in the same order. -/
theorem segments_eq_of_covers (l₁ : List MemoryBlock) :
    ∀ (l₂ : List MemoryBlock),
      (∀ b ∈ l₁, 0 < b.size) →
      l₁.Pairwise (fun p q => p.address + p.size < q.address) →
      (∀ b ∈ l₂, 0 < b.size) →
      l₂.Pairwise (fun p q => p.address + p.size < q.address) →
      (∀ x, (∃ c ∈ l₁, covers c x) ↔ ∃ c ∈ l₂, covers c x) →
      segments l₁ = segments l₂ := by
  induction l₁ with
  | nil =>
    intro l₂ _ _ hpos₂ _ hcov
    cases l₂ with
    | nil => rfl
    | cons b t₂ =>
      have hb := hpos₂ b (List.mem_cons_self _ _)
      obtain ⟨c, hc, -⟩ := (hcov b.address).2 ⟨b, List.mem_cons_self _ _, le_refl _, by omega⟩
      simp at hc
  | cons a t₁ ih =>
    intro l₂ hpos₁ hsep₁ hpos₂ hsep₂ hcov
    cases l₂ with
    | nil =>
      have ha := hpos₁ a (List.mem_cons_self _ _)
      obtain ⟨c, hc, -⟩ := (hcov a.address).1 ⟨a, List.mem_cons_self _ _, le_refl _, by omega⟩
      simp at hc
    | cons b t₂ =>
      have hfw := fun x => (hcov x).1
      have hbw := fun x => (hcov x).2
      have haddr : a.address = b.address :=
        le_antisymm (head_address_le b a t₂ t₁ hpos₂ hpos₁ hsep₁ hbw)
          (head_address_le a b t₁ t₂ hpos₁ hpos₂ hsep₂ hfw)
      have hend : a.address + a.size = b.address + b.size :=
        le_antisymm
          (head_end_le a b t₁ t₂ hpos₁ (hpos₂ b (List.mem_cons_self _ _)) hsep₂ haddr hfw)
          (head_end_le b a t₂ t₁ hpos₂ (hpos₁ a (List.mem_cons_self _ _)) hsep₁ haddr.symm hbw)
      have htl := ih t₂ (fun c hc => hpos₁ c (List.mem_cons_of_mem _ hc))
        (List.pairwise_cons.1 hsep₁).2
        (fun c hc => hpos₂ c (List.mem_cons_of_mem _ hc))
        (List.pairwise_cons.1 hsep₂).2
        (fun x => ⟨tail_covers_of_covers a b t₁ t₂ hsep₁ hend hfw x,
          tail_covers_of_covers b a t₂ t₁ hsep₂ hend.symm hbw x⟩)
      have hsize : a.size = b.size := by omega
      simp only [segments, List.map_cons] at htl ⊢
      rw [htl, haddr, hsize]

/-- The free bytes are the bytes of the arena that no allocated block covers. -/
theorem Inv.free_covers_iff {s : Heap} (hs : Inv s) (x : Int) :
    (∃ c ∈ s.freeBlocks, covers c x) ↔
      (0 ≤ x ∧ x < 1024) ∧ ¬ ∃ c ∈ s.allocatedBlocks, covers c x := by
  have h := hs.cover x
  constructor
  · rintro ⟨c, hc, hx⟩
    have h1 := coverCount_pos_of_mem hc hx
    refine ⟨?_, ?_⟩
    · by_contra hne
      rw [if_neg hne] at h
      omega
    · rintro ⟨d, hd, hdx⟩
      have h2 := coverCount_pos_of_mem hd hdx
      split_ifs at h <;> omega
  · rintro ⟨hx, hno⟩
    rw [if_pos hx] at h
    apply exists_of_coverCount_pos
    by_contra h0
    apply hno
    apply exists_of_coverCount_pos
    omega

/-- Two states that satisfy the invariant and have the same allocated list have the
same free list, address by address and size by size. -/
theorem Inv.segments_eq {s t : Heap} (hs : Inv s) (ht : Inv t)
    (h : s.allocatedBlocks = t.allocatedBlocks) :
    segments s.freeBlocks = segments t.freeBlocks := by
  apply segments_eq_of_covers _ _ hs.free_pos hs.free_sep ht.free_pos ht.free_sep
  intro x
  rw [hs.free_covers_iff x, ht.free_covers_iff x, h]

theorem freeMemory_heapMemory (s : Heap) (h : Int) :
    (freeMemory s h).2.heapMemory = s.heapMemory := by
  unfold freeMemory
  split_ifs
  · rfl
  · split
    · rfl
    · simp only
      split
      · rfl
      · split_ifs <;> rfl

/-- Releasing the handle of a live block removes from the allocated list the entries
carrying that handle, of which there is one. -/
theorem Inv.release_allocated {s : Heap} (hs : Inv s) {b : MemoryBlock}
    (hb : b ∈ s.allocatedBlocks) :
    (freeMemory s b.memory).1 = .released ∧
    (freeMemory s b.memory).2.allocatedBlocks =
      s.allocatedBlocks.filter (fun x => decide (x.memory ≠ b.memory)) := by
  obtain ⟨pre, post, hsplit, huniq, hfree⟩ := hs.release_live hb
  rw [hfree, hsplit]
  refine ⟨rfl, ?_⟩
  have hpre : pre.filter (fun x => decide (x.memory ≠ b.memory)) = pre :=
    List.filter_eq_self.2 (fun x hx => by simpa using huniq x (List.mem_append_left _ hx))
  have hpost : post.filter (fun x => decide (x.memory ≠ b.memory)) = post :=
    List.filter_eq_self.2 (fun x hx => by simpa using huniq x (List.mem_append_right _ hx))
  rw [List.filter_append, List.filter_cons_of_neg (by simp), hpre, hpost]

theorem scenarioD_reachable : Reachable scenarioD :=
  Reachable.call _ (.allocate 524 true)
    (Reachable.call freshHeap (.allocate 500 true) freshHeap_reachable)

theorem scenarioC_reachable : Reachable scenarioC :=
  Reachable.call scenarioA (.release 4096) scenarioA_reachable

/-! ## The records of the free list after a release -/

/-- Every block left by the pass has the address and the field `memory` of a block of
the input: the pass only changes sizes. -/
theorem mergeFromExact_origin (rest : List MemoryBlock) :
    ∀ (p b : MemoryBlock), b ∈ mergeFromExact p rest →
      ∃ c ∈ p :: rest, b.address = c.address ∧ b.memory = c.memory := by
  induction rest with
  | nil =>
    intro p b hb
    simp [mergeFromExact] at hb
    exact ⟨p, by simp, by rw [hb], by rw [hb]⟩
  | cons q tl ih =>
    intro p b hb
    by_cases h : p.address + p.size = q.address
    · rw [mergeFromExact_cons_eq p q tl h] at hb
      obtain ⟨c, hc, hbc⟩ := ih _ b hb
      rcases List.mem_cons.1 hc with rfl | hc
      · exact ⟨p, by simp, hbc⟩
      · exact ⟨c, by simp [hc], hbc⟩
    · rw [mergeFromExact_cons_ne p q tl h] at hb
      rcases List.mem_cons.1 hb with rfl | hb
      · exact ⟨b, by simp, rfl, rfl⟩
      · obtain ⟨c, hc, hbc⟩ := ih _ b hb
        exact ⟨c, List.mem_cons_of_mem _ hc, hbc⟩

theorem mergeFreeBlocksExact_origin (l : List MemoryBlock) (b : MemoryBlock)
    (hb : b ∈ mergeFreeBlocksExact l) : ∃ c ∈ l, b.address = c.address ∧ b.memory = c.memory := by
  cases l with
  | nil => simp [mergeFreeBlocksExact] at hb
  | cons p rest => exact mergeFromExact_origin rest p b hb

/-- After the release of a live block `b`, every free record has the address and the
field `memory` of `b` or of an earlier free record. -/
theorem Inv.release_origin {s : Heap} (hs : Inv s) {b : MemoryBlock}
    (hb : b ∈ s.allocatedBlocks) :
    ∀ c ∈ (freeMemory s b.memory).2.freeBlocks,
      ∃ r ∈ b :: s.freeBlocks, c.address = r.address ∧ c.memory = r.memory := by
  obtain ⟨pre, post, -, -, hfree⟩ := hs.release_live hb
  rw [hfree]
  intro c hc
  have hc' : c ∈ mergeFreeBlocksExact (insertByAddress b s.freeBlocks) := by
    rw [← hs.merge_insert_eq hb]; exact hc
  obtain ⟨r, hr, hcr⟩ := mergeFreeBlocksExact_origin _ c hc'
  exact ⟨r, List.mem_cons.2 ((insertByAddress_mem b s.freeBlocks r).1 hr), hcr⟩

/-- Two lists with the same addresses and sizes whose records take their field `memory`
from one table indexed by address are equal. -/
theorem eq_of_segments_eq (R : List MemoryBlock)
    (hfun : ∀ r ∈ R, ∀ r' ∈ R, r.address = r'.address → r.memory = r'.memory)
    (l₁ : List MemoryBlock) :
    ∀ (l₂ : List MemoryBlock),
      (∀ c ∈ l₁, ∃ r ∈ R, c.address = r.address ∧ c.memory = r.memory) →
      (∀ c ∈ l₂, ∃ r ∈ R, c.address = r.address ∧ c.memory = r.memory) →
      segments l₁ = segments l₂ → l₁ = l₂ := by
  induction l₁ with
  | nil =>
    intro l₂ _ _ hseg
    cases l₂ with
    | nil => rfl
    | cons b t => simp [segments] at hseg
  | cons a t₁ ih =>
    intro l₂ h₁ h₂ hseg
    cases l₂ with
    | nil => simp [segments] at hseg
    | cons b t₂ =>
      simp only [segments, List.map_cons, List.cons.injEq, Prod.mk.injEq] at hseg
      obtain ⟨⟨haddr, hsize⟩, htl⟩ := hseg
      obtain ⟨r, hr, hra, hrm⟩ := h₁ a (List.mem_cons_self _ _)
      obtain ⟨r', hr', hra', hrm'⟩ := h₂ b (List.mem_cons_self _ _)
      have hmem : a.memory = b.memory := by
        rw [hrm, hrm']
        exact hfun r hr r' hr' (by omega)
      have hab : a = b := by
        cases a; cases b
        simp only [MemoryBlock.mk.injEq]
        exact ⟨haddr, hsize, hmem⟩
      rw [hab, ih t₂ (fun c hc => h₁ c (List.mem_cons_of_mem _ hc))
        (fun c hc => h₂ c (List.mem_cons_of_mem _ hc)) htl]

/-- Two live blocks with different handles and the free blocks all start at different
addresses, so that among them the address determines the record. -/
theorem Inv.address_determines {s : Heap} (hs : Inv s) {b1 b2 : MemoryBlock}
    (hb1 : b1 ∈ s.allocatedBlocks) (hb2 : b2 ∈ s.allocatedBlocks)
    (hne : b1.memory ≠ b2.memory) :
    ∀ r ∈ b1 :: b2 :: s.freeBlocks, ∀ r' ∈ b1 :: b2 :: s.freeBlocks,
      r.address = r'.address → r.memory = r'.memory := by
  have hfree : ∀ b ∈ s.allocatedBlocks, ∀ c ∈ s.freeBlocks, b.address ≠ c.address := by
    intro b hb c hc hbc
    have h1 := hs.free_pos c hc
    have h2 := hs.alloc_pos b hb
    exact hs.free_alloc_disjoint hc hb b.address ⟨by omega, by omega⟩ ⟨le_refl _, by omega⟩
  have hpw : (b1 :: b2 :: s.freeBlocks).Pairwise (fun r r' => r.address ≠ r'.address) := by
    rw [List.pairwise_cons, List.pairwise_cons]
    refine ⟨?_, hfree b2 hb2, ?_⟩
    · intro c hc
      rcases List.mem_cons.1 hc with rfl | hc
      · intro h
        have h1 := hs.alloc_mem b1 hb1
        have h2 := hs.alloc_mem c hb2
        omega
      · exact hfree b1 hb1 c hc
    · exact (pairwise_address_lt _ hs.free_pos (hs.free_sep.imp (fun h => le_of_lt h))).imp
        (fun h => ne_of_lt h)
  intro r hr r' hr' haddr
  by_contra hmem
  have hrr : r ≠ r' := fun h => hmem (by rw [h])
  exact hpw.forall (fun _ _ h => h.symm) hr hr' hrr haddr

/-! ## The claims on releases -/

/-- Claim C13 (release order does not matter): in every reachable state, for two
different handles `h1` and `h2` of live blocks, releasing `h1` then `h2` and releasing
`h2` then `h1` both take the releasing path twice and end in the same state: the same
free list, record by record, the same allocated list and the same arena pointer. -/
theorem release_order_irrelevant (s : Heap) (h1 h2 : Int) (b1 b2 : MemoryBlock)
    (hr : Reachable s) (hb1 : b1 ∈ s.allocatedBlocks) (hb2 : b2 ∈ s.allocatedBlocks)
    (hh1 : b1.memory = h1) (hh2 : b2.memory = h2) (hne : h1 ≠ h2) :
    ((freeMemory s h1).1 = .released ∧ (freeMemory (freeMemory s h1).2 h2).1 = .released) ∧
    ((freeMemory s h2).1 = .released ∧ (freeMemory (freeMemory s h2).2 h1).1 = .released) ∧
    (freeMemory (freeMemory s h1).2 h2).2.freeBlocks =
      (freeMemory (freeMemory s h2).2 h1).2.freeBlocks ∧
    (freeMemory (freeMemory s h1).2 h2).2.allocatedBlocks =
      (freeMemory (freeMemory s h2).2 h1).2.allocatedBlocks ∧
    (freeMemory (freeMemory s h1).2 h2).2.heapMemory =
      (freeMemory (freeMemory s h2).2 h1).2.heapMemory := by
  subst hh1 hh2
  have hs := hr.inv
  have hs1 : Inv (freeMemory s b1.memory).2 := hs.release b1.memory
  have hs2 : Inv (freeMemory s b2.memory).2 := hs.release b2.memory
  obtain ⟨ho1, ha1⟩ := hs.release_allocated hb1
  obtain ⟨ho2, ha2⟩ := hs.release_allocated hb2
  have hb2' : b2 ∈ (freeMemory s b1.memory).2.allocatedBlocks := by
    rw [ha1, List.mem_filter]
    exact ⟨hb2, by simpa using fun h => hne h.symm⟩
  have hb1' : b1 ∈ (freeMemory s b2.memory).2.allocatedBlocks := by
    rw [ha2, List.mem_filter]
    exact ⟨hb1, by simpa using hne⟩
  obtain ⟨ho12, ha12⟩ := hs1.release_allocated hb2'
  obtain ⟨ho21, ha21⟩ := hs2.release_allocated hb1'
  have halloc : (freeMemory (freeMemory s b1.memory).2 b2.memory).2.allocatedBlocks =
      (freeMemory (freeMemory s b2.memory).2 b1.memory).2.allocatedBlocks := by
    rw [ha12, ha21, ha1, ha2, List.filter_filter, List.filter_filter]
    congr 1
    funext x
    exact Bool.and_comm _ _
  have hseg := Inv.segments_eq (hs1.release b2.memory) (hs2.release b1.memory) halloc
  have horig12 : ∀ c ∈ (freeMemory (freeMemory s b1.memory).2 b2.memory).2.freeBlocks,
      ∃ r ∈ b1 :: b2 :: s.freeBlocks, c.address = r.address ∧ c.memory = r.memory := by
    intro c hc
    obtain ⟨r, hr, hcr⟩ := hs1.release_origin hb2' c hc
    rcases List.mem_cons.1 hr with rfl | hr
    · exact ⟨r, by simp, hcr⟩
    · obtain ⟨r', hr', hrr⟩ := hs.release_origin hb1 r hr
      refine ⟨r', ?_, by omega, by omega⟩
      rcases List.mem_cons.1 hr' with rfl | hr'
      · simp
      · simp [hr']
  have horig21 : ∀ c ∈ (freeMemory (freeMemory s b2.memory).2 b1.memory).2.freeBlocks,
      ∃ r ∈ b1 :: b2 :: s.freeBlocks, c.address = r.address ∧ c.memory = r.memory := by
    intro c hc
    obtain ⟨r, hr, hcr⟩ := hs2.release_origin hb1' c hc
    rcases List.mem_cons.1 hr with rfl | hr
    · exact ⟨r, by simp, hcr⟩
    · obtain ⟨r', hr', hrr⟩ := hs.release_origin hb2 r hr
      refine ⟨r', ?_, by omega, by omega⟩
      rcases List.mem_cons.1 hr' with rfl | hr'
      · simp
      · simp [hr']
  refine ⟨⟨ho1, ho12⟩, ⟨ho2, ho21⟩, ?_, halloc, ?_⟩
  · exact eq_of_segments_eq _ (hs.address_determines hb1 hb2 hne) _ _ horig12 horig21 hseg
  · rw [freeMemory_heapMemory, freeMemory_heapMemory, freeMemory_heapMemory,
      freeMemory_heapMemory]

/-- Scenario D: after `allocateMemory(500)` and `allocateMemory(524)` on the fresh heap,
the two releases in either order leave the free list `(0, 1024)`. -/
theorem release_order_irrelevant_witness :
    (((freeMemory scenarioD 4096).1 = .released ∧
        (freeMemory (freeMemory scenarioD 4096).2 4596).1 = .released) ∧
      ((freeMemory scenarioD 4596).1 = .released ∧
        (freeMemory (freeMemory scenarioD 4596).2 4096).1 = .released) ∧
      (freeMemory (freeMemory scenarioD 4096).2 4596).2.freeBlocks =
        (freeMemory (freeMemory scenarioD 4596).2 4096).2.freeBlocks ∧
      (freeMemory (freeMemory scenarioD 4096).2 4596).2.allocatedBlocks =
        (freeMemory (freeMemory scenarioD 4596).2 4096).2.allocatedBlocks ∧
      (freeMemory (freeMemory scenarioD 4096).2 4596).2.heapMemory =
        (freeMemory (freeMemory scenarioD 4596).2 4096).2.heapMemory) ∧
    segments (freeMemory (freeMemory scenarioD 4096).2 4596).2.freeBlocks = [(0, 1024)] ∧
    segments (freeMemory (freeMemory scenarioD 4596).2 4096).2.freeBlocks = [(0, 1024)] :=
  ⟨release_order_irrelevant scenarioD 4096 4596 ⟨0, 500, 4096⟩ ⟨500, 524, 4596⟩
      scenarioD_reachable (by decide) (by decide) rfl rfl (by decide),
    by decide, by decide⟩

/-- Claim C15 (full release restores the initial heap): in every reachable state whose
allocated list is empty, the free list is the single block `(0, 1024)`. -/
theorem full_release_restores (s : Heap) (hr : Reachable s)
    (hempty : s.allocatedBlocks = []) : segments s.freeBlocks = [(0, 1024)] := by
  have hs := hr.inv
  have h := segments_eq_of_covers s.freeBlocks [⟨0, 1024, 0⟩] hs.free_pos hs.free_sep
    (by simp) (by simp) (fun x => by
      rw [hs.free_covers_iff x, hempty]
      simp [covers])
  rw [h]
  rfl

theorem full_release_restores_witness :
    Reachable scenarioC ∧ scenarioC.allocatedBlocks = [] ∧
      segments scenarioC.freeBlocks = [(0, 1024)] :=
  ⟨scenarioC_reachable, rfl, full_release_restores scenarioC scenarioC_reachable rfl⟩

/-- In a list sorted by address that has a block at address `a`, the walk
`while (curr->address < a)` stops at a block at address `a`. -/
theorem dropWhile_stops_at (l : List MemoryBlock) (a : Int)
    (hsorted : l.Pairwise (fun p q => p.address ≤ q.address))
    (hdup : ∃ f ∈ l, f.address = a) :
    ∃ c tl, l.dropWhile (fun c => decide (c.address < a)) = c :: tl ∧ c.address = a := by
  induction l with
  | nil => obtain ⟨f, hf, -⟩ := hdup; simp at hf
  | cons x t ih =>
    obtain ⟨f, hf, hfa⟩ := hdup
    rw [List.pairwise_cons] at hsorted
    by_cases hx : x.address < a
    · rw [List.dropWhile_cons_of_pos (by simpa using hx)]
      rcases List.mem_cons.1 hf with rfl | hf
      · omega
      · exact ih hsorted.2 ⟨f, hf, hfa⟩
    · rw [List.dropWhile_cons_of_neg (by simpa using hx)]
      refine ⟨x, t, rfl, ?_⟩
      rcases List.mem_cons.1 hf with rfl | hf
      · exact hfa
      · have := hsorted.1 f hf
        omega

/-- Claim C16 (double-free guard): in every state whose free list is sorted by address,
if the lookup of the non-null handle `h` stops at the entry `b` of the allocated list
(between `pre`, no entry of which carries `h`, and `post`) and some free block has the
address of `b`, then `freeMemory(h)` takes the warning path: the entry leaves the
allocated list and the free list and the arena pointer stay exactly as they were (no
insertion, no coalescing). -/
theorem double_free_guard (s : Heap) (h : Int) (pre : List MemoryBlock) (b : MemoryBlock)
    (post : List MemoryBlock) (hh : h ≠ 0) (hsplit : s.allocatedBlocks = pre ++ b :: post)
    (hpre : ∀ x ∈ pre, x.memory ≠ h) (hb : b.memory = h)
    (hsorted : s.freeBlocks.Pairwise (fun p q => p.address ≤ q.address))
    (hdup : ∃ f ∈ s.freeBlocks, f.address = b.address) :
    freeMemory s h = (.alreadyFreed, { s with allocatedBlocks := pre ++ post }) ∧
    (freeMemory s h).2.freeBlocks = s.freeBlocks := by
  obtain ⟨c, tl, hd, hc⟩ := dropWhile_stops_at s.freeBlocks b.address hsorted hdup
  have := freeMemory_found_dup s h pre b post hh hsplit hpre hb c tl hd hc
  rw [this]
  exact ⟨rfl, rfl⟩

theorem double_free_guard_witness :
    freeMemory staleState 4296 =
      (.alreadyFreed, { staleState with allocatedBlocks := [⟨100, 100, 4196⟩] ++ [] }) ∧
    (freeMemory staleState 4296).2.freeBlocks = staleState.freeBlocks :=
  double_free_guard staleState 4296 [⟨100, 100, 4196⟩] ⟨200, 50, 4296⟩ [] (by decide) rfl
    (by decide) rfl (by decide) (by decide)

/-- Claim C18 (the double-free branch is dead): in every reachable state `freeMemory`
never takes the warning path, whatever its argument; and for every entry `b` of the
allocated list no free block starts at the address of `b`, the walk over the free list
does not stop at a block with that address, and `freeMemory` on the handle of `b` takes
the releasing path, which puts `b` back into the free list and coalesces. -/
theorem double_free_branch_dead (s : Heap) (hr : Reachable s) :
    (∀ h, (freeMemory s h).1 ≠ .alreadyFreed) ∧
    (∀ b ∈ s.allocatedBlocks,
      (∀ c ∈ s.freeBlocks, c.address ≠ b.address) ∧
      (∀ c ∈ (advance (fun c => decide (c.address < b.address)) s.freeBlocks).2.head?,
        c.address ≠ b.address) ∧
      (freeMemory s b.memory).1 = .released ∧
      (freeMemory s b.memory).2.freeBlocks =
        mergeFreeBlocks (insertByAddress b s.freeBlocks)) := by
  have hs := hr.inv
  have hlive : ∀ b ∈ s.allocatedBlocks, (freeMemory s b.memory).1 = .released ∧
      (freeMemory s b.memory).2.freeBlocks =
        mergeFreeBlocks (insertByAddress b s.freeBlocks) := by
    intro b hb
    obtain ⟨pre, post, -, -, hfree⟩ := hs.release_live hb
    rw [hfree]
    exact ⟨rfl, rfl⟩
  constructor
  · intro h
    by_cases hh : h = 0
    · subst hh; rw [freeMemory_null]; simp
    rcases lookup_split s.allocatedBlocks h with habs | ⟨pre, b, post, hsplit, -, hb⟩
    · rw [freeMemory_absent s h hh habs]; simp
    · have hbmem : b ∈ s.allocatedBlocks := by rw [hsplit]; simp
      rw [← hb, (hlive b hbmem).1]
      simp
  · intro b hb
    refine ⟨?_, ?_, hlive b hb⟩
    · intro c hc hcb
      have h1 := hs.free_pos c hc
      have h2 := hs.alloc_pos b hb
      exact hs.free_alloc_disjoint hc hb b.address ⟨by omega, by omega⟩ ⟨le_refl _, by omega⟩
    · intro c hc
      rw [advance_eq] at hc
      cases hd : List.dropWhile (fun c => decide (c.address < b.address)) s.freeBlocks with
      | nil => simp [hd] at hc
      | cons c' tl =>
        simp only [hd, List.head?_cons, Option.mem_def, Option.some.injEq] at hc
        subst hc
        exact hs.no_dup hb c' tl hd

theorem double_free_branch_dead_witness :
    Reachable scenarioHole ∧
    ((∀ h, (freeMemory scenarioHole h).1 ≠ .alreadyFreed) ∧
    (∀ b ∈ scenarioHole.allocatedBlocks,
      (∀ c ∈ scenarioHole.freeBlocks, c.address ≠ b.address) ∧
      (∀ c ∈ (advance (fun c => decide (c.address < b.address))
          scenarioHole.freeBlocks).2.head?, c.address ≠ b.address) ∧
      (freeMemory scenarioHole b.memory).1 = .released ∧
      (freeMemory scenarioHole b.memory).2.freeBlocks =
        mergeFreeBlocks (insertByAddress b scenarioHole.freeBlocks))) :=
  ⟨scenarioHole_reachable, double_free_branch_dead scenarioHole scenarioHole_reachable⟩

/-! ## The claims on handles and on the fresh heap -/

/-- Claim C17 (the block at address 0 has a valid handle): in every reachable state, a
call of `allocateMemory` that allocates (the first free block of size at least `n > 0`
is `b` and the record for the new block is obtained) returns the pointer
`heapMemory + b.address`, which is not the null pointer, also when `b.address = 0`,
where it is `heapMemory` itself; and for every entry `b` of the allocated list at
address 0, `freeMemory` on its handle is not stopped by the null-pointer check or by
the lookup but takes the releasing path, after which no entry carries that handle and
the bytes of `b` are free. -/
theorem address_zero_handle_valid (s : Heap) (hr : Reachable s) :
    (∀ (n : Int) (pre : List MemoryBlock) (b : MemoryBlock) (post : List MemoryBlock),
      0 < n → s.freeBlocks = pre ++ b :: post → (∀ x ∈ pre, x.size < n) → n ≤ b.size →
      (allocateMemory s n true).1 = s.heapMemory + b.address ∧
      (allocateMemory s n true).1 ≠ 0 ∧
      (b.address = 0 → (allocateMemory s n true).1 = s.heapMemory)) ∧
    (∀ b ∈ s.allocatedBlocks, b.address = 0 →
      b.memory = s.heapMemory ∧ b.memory ≠ 0 ∧
      (freeMemory s b.memory).1 = .released ∧
      (∀ x ∈ (freeMemory s b.memory).2.allocatedBlocks, x.memory ≠ b.memory) ∧
      (∀ x, covers b x → ∃ c ∈ (freeMemory s b.memory).2.freeBlocks, covers c x)) := by
  have hs := hr.inv
  constructor
  · intro n pre b post hn hsplit hpre hb
    rw [allocateMemory_fit s n pre b post hn hsplit hpre hb]
    have hbmem : b ∈ s.freeBlocks := by rw [hsplit]; simp
    have h1 := (hs.blocks_in_arena b (List.mem_append_left _ hbmem)).1
    have h2 := hs.heap_pos
    refine ⟨rfl, ?_, ?_⟩
    · show s.heapMemory + b.address ≠ 0
      omega
    · intro h0
      show s.heapMemory + b.address = s.heapMemory
      omega
  · intro b hb h0
    have hmem := hs.alloc_mem b hb
    obtain ⟨pre, post, hsplit, huniq, hfree⟩ := hs.release_live hb
    refine ⟨by omega, hs.handle_ne_zero hb, ?_, ?_, ?_⟩
    · rw [hfree]
    · rw [hfree]; exact huniq
    · intro x hx
      rw [hfree]
      apply exists_of_coverCount_pos
      show 0 < coverCount (mergeFreeBlocks (insertByAddress b s.freeBlocks)) x
      have hipos : ∀ q ∈ insertByAddress b s.freeBlocks, 0 < q.size := by
        intro q hq
        rcases (insertByAddress_mem b s.freeBlocks q).1 hq with rfl | hq
        · exact hs.alloc_pos q hb
        · exact hs.free_pos q hq
      rw [hs.merge_insert_eq hb, mergeFreeBlocksExact_coverCount _ hipos, insertByAddress_coverCount, coverCount_cons,
        if_pos hx]
      omega

/-- Scenario A: the first block of the fresh heap is at address 0, its handle is the
arena pointer 4096, and releasing that handle gives the free list `(0, 1024)`. -/
theorem address_zero_handle_valid_witness :
    ((allocateMemory freshHeap 100 true).1 = freshHeap.heapMemory + 0 ∧
      (allocateMemory freshHeap 100 true).1 ≠ 0 ∧
      ((0 : Int) = 0 → (allocateMemory freshHeap 100 true).1 = freshHeap.heapMemory)) ∧
    ((4096 : Int) = scenarioA.heapMemory ∧ (4096 : Int) ≠ 0 ∧
      (freeMemory scenarioA 4096).1 = .released ∧
      (∀ x ∈ (freeMemory scenarioA 4096).2.allocatedBlocks, x.memory ≠ 4096) ∧
      (∀ x, covers ⟨0, 100, 4096⟩ x →
        ∃ c ∈ (freeMemory scenarioA 4096).2.freeBlocks, covers c x)) :=
  ⟨(address_zero_handle_valid freshHeap freshHeap_reachable).1 100 [] ⟨0, 1024, 0⟩ []
      (by decide) rfl (by decide) (by decide),
    (address_zero_handle_valid scenarioA scenarioA_reachable).2 ⟨0, 100, 4096⟩
      (by decide) rfl⟩

/-- Claim C14 as stated fails: on the fresh heap, `allocateMemory(100)` returns `NULL`
and records nothing when the `malloc` of the record for the new block fails. -/
theorem first_allocation_may_fail :
    initializeHeap 4096 true = some freshHeap ∧ (1 : Int) ≤ 100 ∧ (100 : Int) ≤ 1024 ∧
      (allocateMemory freshHeap 100 false).1 = 0 ∧
      (allocateMemory freshHeap 100 false).2.allocatedBlocks = [] ∧
      (allocateMemory freshHeap 100 false).2.freeBlocks = [⟨0, 1024, 0⟩] := by
  decide

/-- Claim C14, amended (first allocation from a fresh heap): whenever `initializeHeap`
returns, the free list is `(0, 1024)` and the allocated list is empty; and for every
`n` with `1 ≤ n ≤ 1024`, `allocateMemory(n)` on that state, when the record for the new
block is obtained, returns a non-null pointer, the arena pointer itself (address 0),
leaves the allocated list `(0, n)`, and leaves the free list `(n, 1024 - n)` when
`n < 1024` and empty when `n = 1024`. -/
theorem first_allocation (heap : Int) (blockOk : Bool) (s : Heap)
    (hinit : initializeHeap heap blockOk = some s) :
    s.heapMemory = heap ∧ s.freeBlocks = [⟨0, 1024, 0⟩] ∧ s.allocatedBlocks = [] ∧
    ∀ n : Int, 1 ≤ n → n ≤ 1024 →
      (allocateMemory s n true).1 ≠ 0 ∧
      (allocateMemory s n true).1 = heap ∧
      (allocateMemory s n true).2.allocatedBlocks = [⟨0, n, heap⟩] ∧
      (n < 1024 → (allocateMemory s n true).2.freeBlocks = [⟨n, 1024 - n, 0⟩]) ∧
      (n = 1024 → (allocateMemory s n true).2.freeBlocks = []) := by
  unfold initializeHeap at hinit
  split_ifs at hinit with h0 h1
  simp only [Option.some.injEq] at hinit
  subst hinit
  refine ⟨rfl, rfl, rfl, ?_⟩
  intro n hn1 hn2
  have hcarve : carve [] ⟨0, 1024, 0⟩ [] n = takeFrom [] ⟨0, 1024, 0⟩ [] n :=
    carve_eq_takeFrom [] ⟨0, 1024, 0⟩ [] n
      (by show inInt (0 + n); unfold inInt; omega)
      (by show inInt (1024 - n); unfold inInt; omega)
  rw [allocateMemory_fit _ n [] ⟨0, 1024, 0⟩ [] (by omega) rfl (by simp) hn2, hcarve]
  refine ⟨?_, ?_, ?_, ?_, ?_⟩
  · show heap + 0 ≠ 0
    omega
  · show heap + 0 = heap
    omega
  · show [] ++ [(⟨0, n, heap + 0⟩ : MemoryBlock)] = _
    simp
  · intro hlt
    show takeFrom [] ⟨0, 1024, 0⟩ [] n = _
    rw [takeFrom, if_neg (by show ¬ (1024 - n = 0); omega)]
    simp
  · intro heq
    show takeFrom [] ⟨0, 1024, 0⟩ [] n = _
    rw [takeFrom, if_pos (by show 1024 - n = 0; omega)]
    rfl

/-- Scenario A: `allocateMemory(100)` on the fresh heap gives the free list
`(100, 924)`. -/
theorem first_allocation_witness :
    (freshHeap.heapMemory = 4096 ∧ freshHeap.freeBlocks = [⟨0, 1024, 0⟩] ∧
      freshHeap.allocatedBlocks = []) ∧
    ((allocateMemory freshHeap 100 true).1 ≠ 0 ∧
      (allocateMemory freshHeap 100 true).1 = 4096 ∧
      (allocateMemory freshHeap 100 true).2.allocatedBlocks = [⟨0, 100, 4096⟩] ∧
      ((100 : Int) < 1024 → (allocateMemory freshHeap 100 true).2.freeBlocks =
        [⟨100, 1024 - 100, 0⟩]) ∧
      ((100 : Int) = 1024 → (allocateMemory freshHeap 100 true).2.freeBlocks = [])) ∧
    segments (allocateMemory freshHeap 100 true).2.freeBlocks = [(100, 924)] :=
  have h := first_allocation 4096 true freshHeap rfl
  ⟨⟨h.1, h.2.1, h.2.2.1⟩, h.2.2.2 100 (by decide) (by decide), by decide⟩

/-! ## The claim on the driver -/

/-- Claim C20 fails on the code: after twenty commands "allocate 1 byte" the counter of
`main` is 20 and the twenty blocks are allocated, and the twenty-first such command
stores the result of `allocateMemory` at index 20, outside the array of capacity 20. -/
theorem tracking_array_overflow :
    (∃ d, main 4096 true (List.replicate 20 (.allocate 1 true)) = some (.ok d) ∧
      d.allocationCount = 20 ∧ d.heap.allocatedBlocks.length = 20) ∧
    main 4096 true (List.replicate 21 (.allocate 1 true)) = some (.outOfBounds 20) := by
  refine ⟨⟨_, rfl, ?_, ?_⟩, ?_⟩ <;> decide

end HeapManagement
